import Mathlib

/-!
Verification development for the client-side streaming engine of the
DataGrunt conversation UI (React/TypeScript frontend).

The TypeScript source is shallowly embedded: strings are `List Char`
(JavaScript strings at code-point granularity), the regular expressions of
the source are compiled to explicit backtracking scanners with the same
match semantics, React state updates become pure transition functions on an
`AppState` record, and the byte-level SSE transport is modelled over
`List Nat` (bytes / code points) with an incremental UTF-8 decoder.
All definitions are executable so that concrete runs can be checked by
`decide`.
-/

set_option maxRecDepth 20000

namespace Datagrunt

/-! ## Character classes and trimming (ECMAScript semantics) -/

/-- The ECMAScript whitespace class used by `String.prototype.trim` and by
the regex class `\s` (ASCII whitespace, NBSP, BOM and the two Unicode line
separators; the rarely used exotic Unicode space characters are omitted from
the model). -/
def isWsC (c : Char) : Bool :=
  c == ' ' || c == '\t' || c == '\n' || c == '\r' ||
  c == (Char.ofNat 11) || c == (Char.ofNat 12) || c == (Char.ofNat 0xA0) ||
  c == (Char.ofNat 0x2028) || c == (Char.ofNat 0x2029) || c == (Char.ofNat 0xFEFF)

/-- Leading-whitespace removal, one half of `String.prototype.trim`. -/
def trimLeft (l : List Char) : List Char := l.dropWhile isWsC

/-- Trailing-whitespace removal, the other half of `String.prototype.trim`. -/
def trimRight (l : List Char) : List Char := (l.reverse.dropWhile isWsC).reverse

/-- `String.prototype.trim`. -/
def trimStr (l : List Char) : List Char := trimRight (trimLeft l)

/-- `String.prototype.startsWith` on code-point lists. -/
def listStarts : List Char → List Char → Bool
  | [], _ => true
  | _ :: _, [] => false
  | p :: ps, c :: cs => p == c && listStarts ps cs

/-- Case-insensitive `startsWith`, for regexes carrying the `i` flag. -/
def ciStarts : List Char → List Char → Bool
  | [], _ => true
  | _ :: _, [] => false
  | p :: ps, c :: cs => p.toLower == c.toLower && ciStarts ps cs

/-! ## Duplicate-content truncator (`deduplicateReport`, utils.ts)

The embedded source is the two-strategy version:

```ts
export function deduplicateReport(text: string): string {
  const execSummaryPattern = /#{2,3}\s*Executive Summary/gi;
  const matches = [...text.matchAll(execSummaryPattern)];
  if (matches.length > 1) {
    const secondMatchIdx = matches[1].index!;
    return text.substring(0, secondMatchIdx).trim();
  }
  const trimmed = text.trim();
  const len = trimmed.length;
  if (len > 20) {
    for (let splitPoint = Math.floor(len * 0.4); splitPoint <= Math.floor(len * 0.6); splitPoint++) {
      const firstHalf = trimmed.substring(0, splitPoint).trim();
      const secondHalf = trimmed.substring(splitPoint).trim();
      if (secondHalf.startsWith(firstHalf.substring(0, Math.min(50, firstHalf.length)))) {
        return firstHalf;
      }
    }
  }
  return text;
}
```

`Math.floor(len * 0.4)` and `Math.floor(len * 0.6)` coincide with the exact
rationals `⌊2·len/5⌋` and `⌊3·len/5⌋` for every attainable length (the
double-rounding error is far below the distance to the next integer), so the
model uses natural division. -/

/-- The literal inside the duplicate-summary pattern. -/
def execLit : List Char := "Executive Summary".toList

/-- One attempt of `#{2,3}\s*Executive Summary` (case-insensitive) anchored
at the head of `l`; returns the number of characters consumed.  The greedy
hash counter tries three hashes first; backtracking from three to two hashes
can never help (the skipped third `#` is not whitespace and does not open the
literal), so the two-hash branch only fires when exactly two hashes are
present. -/
def matchExecAt (l : List Char) : Option Nat :=
  match l with
  | '#' :: '#' :: '#' :: r =>
    let k := (r.takeWhile isWsC).length
    if ciStarts execLit (r.drop k) then some (3 + k + 17) else none
  | '#' :: '#' :: r =>
    let k := (r.takeWhile isWsC).length
    if ciStarts execLit (r.drop k) then some (2 + k + 17) else none
  | _ => none

/-- `String.prototype.matchAll`: leftmost, non-overlapping scan; returns the
start index of every match.  Fuelled for structural recursion (the wrapper
supplies fuel ≥ length, which is always enough since each step consumes at
least one character). -/
def scanExecF : Nat → Nat → List Char → List Nat
  | 0, _, _ => []
  | _ + 1, _, [] => []
  | fuel + 1, pos, c :: rest =>
    match matchExecAt (c :: rest) with
    | some len => pos :: scanExecF fuel (pos + len) (List.drop (len - 1) rest)
    | none => scanExecF fuel (pos + 1) rest

/-- Start indices of all matches of the duplicate-summary pattern. -/
def scanExec (l : List Char) : List Nat := scanExecF l.length 0 l

/-- Primary strategy: truncate at the start of the second
`Executive Summary` header, then trim. -/
def dedupPrimary (t : List Char) : Option (List Char) :=
  match scanExec t with
  | _ :: i₂ :: _ => some (trimStr (t.take i₂))
  | _ => none

/-- The split-point loop of the secondary strategy: `sp` is the current
split point, the fuel counts the remaining iterations (the source iterates
`sp` from `⌊0.4·len⌋` to `⌊0.6·len⌋` inclusive). -/
def secLoop (trimmed : List Char) : Nat → Nat → Option (List Char)
  | _, 0 => none
  | sp, fuel + 1 =>
    let fh := trimStr (trimmed.take sp)
    let sh := trimStr (trimmed.drop sp)
    if listStarts (fh.take 50) sh then some fh
    else secLoop trimmed (sp + 1) fuel

/-- Secondary strategy: look for a 40%–60% split point at which the second
half repeats the first half's leading (at most 50) characters; guarded by
the trimmed length being over 20. -/
def dedupSecondary (t : List Char) : Option (List Char) :=
  if (trimStr t).length ≤ 20 then none
  else
    secLoop (trimStr t) (2 * (trimStr t).length / 5)
      (3 * (trimStr t).length / 5 + 1 - 2 * (trimStr t).length / 5)

/-- `deduplicateReport` (src/unnamed/part_001, lines 15–43). -/
def deduplicateReport (t : List Char) : List Char :=
  match dedupPrimary t with
  | some r => r
  | none =>
    match dedupSecondary t with
    | some r => r
    | none => t

/-! ## Report classifier (`isReportMessage`, src/frontend/utils.ts)

```ts
export function isReportMessage(text: string): boolean {
  if (text.length > 500) return true;
  if (/^#{1,3}\s/m.test(text)) return true;
  return false;
}
```

The multiline anchor `^` matches at the start of the string and directly
after every line terminator, so the test is compiled as: split the text
after every line terminator (each piece keeps its terminator) and try the
anchored pattern `#{1,3}\s` at the start of each piece.  Keeping the
terminator matters: in `"#\n"` the newline itself satisfies the trailing
`\s`.  The pattern inspects at most four characters and stops at the first
whitespace it accepts, so it can never see past the kept terminator. -/

/-- Line terminators recognised by the ECMAScript multiline anchor. -/
def isLineTerm (c : Char) : Bool :=
  c == '\n' || c == '\r' || c == (Char.ofNat 0x2028) || c == (Char.ofNat 0x2029)

/-- Anchored `#{1,3}\s`: one to three hashes followed by a whitespace
character (greedy with backtracking, hence the nested alternatives). -/
def hashWs (l : List Char) : Bool :=
  match l with
  | c0 :: c1 :: rest2 =>
    if c0 == '#' then
      if isWsC c1 then true
      else if c1 == '#' then
        match rest2 with
        | c2 :: rest3 =>
          if isWsC c2 then true
          else if c2 == '#' then
            match rest3 with
            | c3 :: _ => isWsC c3
            | [] => false
          else false
        | [] => false
      else false
    else false
  | _ => false

/-- Split a text after every line terminator; each piece keeps its
terminator, the final piece has none. -/
def linesKeep : List Char → List (List Char)
  | [] => [[]]
  | c :: rest =>
    if isLineTerm c then [c] :: linesKeep rest
    else
      match linesKeep rest with
      | [] => [[c]]
      | h :: ts => (c :: h) :: ts

/-- `isReportMessage` (src/frontend/utils.ts, lines 5–9). -/
def isReportMessage (t : List Char) : Bool :=
  decide (500 < t.length) || (linesKeep t).any hashWs

/-! ## Message records and the best-report selector

`ChatMessage` from src/unnamed/part_000 (types.ts).  The `File` object of a
file attachment is outside the model; its name and size are kept.
Wall-clock timestamps are not modelled (the transitions below create
messages with timestamp 0). -/

inductive Role where
  | user
  | agent
deriving DecidableEq, Repr

structure Msg where
  id : Nat
  role : Role
  text : List Char
  toolCalls : List (String × String)
  fileAttachment : Option (String × Nat)
  downloadable : Option (List Char × List Char)
  streaming : Bool
  timestamp : Nat
deriving DecidableEq, Repr

/-- The candidate filter of the best-report scan in Canvas.tsx:
`m.role === 'agent' && !m.isStreaming && m.text && isReportMessage(m.text)`. -/
def isCandidate (m : Msg) : Bool :=
  (m.role == Role.agent) && !m.streaming && !m.text.isEmpty && isReportMessage m.text

/-- The selection loop of `reportContent` (src/frontend/components/Canvas.tsx,
lines 33–41): keep the longest candidate text, strict comparison, so the
first-found maximum wins. -/
def bestReportText (msgs : List Msg) : List Char :=
  msgs.foldl
    (fun best m =>
      if isCandidate m && best.length < m.text.length then m.text else best)
    []

/-- `reportContent` (Canvas.tsx line 42): the selected text after
duplicate-content truncation. -/
def reportContent (msgs : List Msg) : List Char :=
  deduplicateReport (bestReportText msgs)

/-- The texts of all candidate messages, in history order (specification-side
view of the scan; the selector is proved equal to a fold over this list). -/
def candidateTexts (msgs : List Msg) : List (List Char) :=
  (msgs.filter isCandidate).map (fun m => m.text)

/-- The inner comparison of the selection loop: keep the incumbent unless
the challenger is strictly longer. -/
def pickLonger (best t : List Char) : List Char :=
  if best.length < t.length then t else best

/-! ## Cleaned-file resolver (`extractCleanedFilePath`, adkService.ts)

```ts
export function extractCleanedFilePath(text: string): string | null {
  const match = text.match(/(?:saved|file is|data is)[:\s]+`?([^\s`]+_cleaned\.csv)`?/i)
    || text.match(/at[:\s]+`?([^\s`]+_cleaned\.csv)`?/i)
    || text.match(/`([^\s`]+_cleaned\.csv)`/);
  return match ? match[1] : null;
}
```

Each regex is compiled to a leftmost-position scanner with the engine's
backtracking order made explicit:

* the separator `[:\s]+` is greedy and backtracks from its maximal run down
  to one character (shorter runs expose a leading `:` to the capture group);
* `` `? `` consumes a backtick exactly when one is present (not consuming a
  present backtick dead-ends, since a backtick can never open the group);
* inside the group, `[^\s`]+` is greedy, so the capture extends to the last
  occurrence of the suffix literal `_cleaned.csv` inside the maximal
  non-space-non-backtick run (every character of the literal is itself in
  the class, so the literal cannot straddle the end of the run). -/

/-- The character class `[^\s`]`. -/
def xChar (c : Char) : Bool := !isWsC c && c != '`'

/-- The character class `[:\s]`. -/
def sepChar (c : Char) : Bool := c == ':' || isWsC c

/-- The capture group's suffix literal (12 characters). -/
def cleanedLit : List Char := "_cleaned.csv".toList

/-- Find the largest offset `k ≥ 1` at which `_cleaned.csv` occurs
(case-insensitively) in `run`; the scan starts at `run.length` and counts
down, matching the greedy `[^\s`]+`. -/
def capLoop (run : List Char) : Nat → Option Nat
  | 0 => none
  | k + 1 =>
    if ciStarts cleanedLit (run.drop (k + 1)) then some (k + 1)
    else capLoop run k

/-- Backtracking over the separator length `m` (from maximal down to 1):
after the separator, an optional backtick, then the capture group. -/
def sepLoop (rest : List Char) : Nat → Option (List Char)
  | 0 => none
  | m + 1 =>
    let after := rest.drop (m + 1)
    let after2 := match after with
      | '`' :: r => r
      | _ => after
    let run := after2.takeWhile xChar
    match capLoop run run.length with
    | some k => some (run.take (k + 12))
    | none => sepLoop rest m

/-- Try `[:\s]+`?([^\s`]+_cleaned\.csv)`?` directly after a keyword. -/
def sepTail (rest : List Char) : Option (List Char) :=
  sepLoop rest (rest.takeWhile sepChar).length

/-- The alternation `(?:saved|file is|data is)` with the `i` flag; the three
alternatives begin with distinct letters, so at most one can match at a
given position. -/
def kwSaved (l : List Char) : Option Nat :=
  if ciStarts "saved".toList l then some 5
  else if ciStarts "file is".toList l then some 7
  else if ciStarts "data is".toList l then some 7
  else none

/-- The keyword of the second pattern. -/
def kwAt (l : List Char) : Option Nat :=
  if ciStarts "at".toList l then some 2 else none

/-- Leftmost-match scan for a keyword pattern: at each position try the
keyword and, on success, the separated capture tail; on any failure move one
position right. -/
def scanKw (kw : List Char → Option Nat) : List Char → Option (List Char)
  | [] => none
  | c :: rest =>
    match kw (c :: rest) with
    | some klen =>
      match sepTail (List.drop (klen - 1) rest) with
      | some cap => some cap
      | none => scanKw kw rest
    | none => scanKw kw rest

/-- The third pattern `` `([^\s`]+_cleaned\.csv)` ``: the run after an
opening backtick must end (case-sensitively) in the literal and be followed
by a closing backtick, forcing the capture to be the whole run. -/
def scanTick : List Char → Option (List Char)
  | [] => none
  | c :: rest =>
    if c == '`' then
      let run := rest.takeWhile xChar
      if 13 ≤ run.length
          && listStarts cleanedLit (run.drop (run.length - 12))
          && listStarts ['`'] (rest.drop run.length) then some run
      else scanTick rest
    else scanTick rest

/-- `extractCleanedFilePath` (src/unnamed/part_000, lines 216–223): the
three patterns are tried in a fixed order and the first match wins. -/
def extractCleanedFilePath (t : List Char) : Option (List Char) :=
  match scanKw kwSaved t with
  | some r => some r
  | none =>
    match scanKw kwAt t with
    | some r => some r
    | none => scanTick t

/-- Split a path on `/` (for `filePath.split('/')`). -/
def splitSlash : List Char → List (List Char)
  | [] => [[]]
  | c :: rest =>
    if c == '/' then [] :: splitSlash rest
    else
      match splitSlash rest with
      | [] => [[c]]
      | h :: ts => (c :: h) :: ts

/-- `filePath.split('/').pop() || 'cleaned.csv'`: the display name of a
downloadable artifact. -/
def downloadNameOf (path : List Char) : List Char :=
  match (splitSlash path).reverse with
  | [] => "cleaned.csv".toList
  | s :: _ => if s.isEmpty then "cleaned.csv".toList else s

/-! ## Turn/message state machine (App.tsx, src/unnamed/part_001)

React's `useState` setters become pure transitions on an `AppState` record.
The `agentMessageIdRef` becomes `activeId`; the session object is reduced to
the presence flag that `handleSendMessage` tests.  A stream's `onComplete`
handler runs `finalizeAgentMessage` and then clears the running flag and the
active id in the same synchronous handler, so the model performs them as one
transition (likewise for `onError`). -/

structure AppState where
  messages : List Msg
  running : Bool
  counter : Nat
  activeId : Option Nat
  session : Bool
deriving DecidableEq, Repr

/-- The initial state of the component. -/
def initApp : AppState :=
  { messages := [], running := false, counter := 0, activeId := none, session := false }

/-- A user message as created by `handleSendMessage`. -/
def mkUserMsg (id : Nat) (text : List Char) : Msg :=
  { id := id, role := Role.user, text := text, toolCalls := [],
    fileAttachment := none, downloadable := none, streaming := false, timestamp := 0 }

/-- The empty streaming agent message created when a turn starts. -/
def mkAgentMsg (id : Nat) : Msg :=
  { id := id, role := Role.agent, text := [], toolCalls := [],
    fileAttachment := none, downloadable := none, streaming := true, timestamp := 0 }

/-- `appendAgentText`: append a flushed token batch to the message's text. -/
def appendAgentText (st : AppState) (id : Nat) (tok : List Char) : AppState :=
  { st with
    messages := st.messages.map fun m =>
      if m.id = id then { m with text := m.text ++ tok } else m }

/-- `appendToolCall`: append one tool-invocation record. -/
def appendToolCall (st : AppState) (id : Nat) (name friendly : String) : AppState :=
  { st with
    messages := st.messages.map fun m =>
      if m.id = id then { m with toolCalls := m.toolCalls ++ [(name, friendly)] } else m }

/-- `setCleanedFile`: record the structured file-reference signal. -/
def setCleanedFile (st : AppState) (id : Nat) (path : List Char) : AppState :=
  { st with
    messages := st.messages.map fun m =>
      if m.id = id then { m with downloadable := some (path, downloadNameOf path) } else m }

/-- `finalizeAgentMessage` (part_001 lines 134–154) merged with the rest of
the `onComplete` handler (clear running flag and active id): store the full
accumulated text, clear the streaming flag, and fall back to regex path
extraction only when no structured file-reference signal fired. -/
def finalizeAgentMessage (st : AppState) (id : Nat) (full : List Char) : AppState :=
  let cleanedPath := extractCleanedFilePath full
  { st with
    messages := st.messages.map fun m =>
      if m.id = id then
        { m with
          text := full, streaming := false,
          downloadable :=
            match m.downloadable with
            | some d => some d
            | none =>
              match cleanedPath with
              | some p => some (p, downloadNameOf p)
              | none => none }
      else m,
    running := false, activeId := none }

/-- The visible error annotation appended by `markAgentError`. -/
def errAnn (emsg : List Char) : List Char := "\n\n**Error:** ".toList ++ emsg

/-- `markAgentError` (part_001 lines 156–164) merged with the rest of the
`onError` handler: append the annotation to the text applied so far and
clear the streaming flag. -/
def markAgentError (st : AppState) (id : Nat) (emsg : List Char) : AppState :=
  { st with
    messages := st.messages.map fun m =>
      if m.id = id then { m with text := m.text ++ errAnn emsg, streaming := false } else m,
    running := false, activeId := none }

/-- `handleSendMessage` (part_001 lines 284–321): rejected outright while the
agent is running or without a session; otherwise append the user message and
an empty streaming agent message and mark the turn as running. -/
def handleSendMessage (st : AppState) (text : List Char) : AppState :=
  if st.running || !st.session then st
  else
    { messages := st.messages ++ [mkUserMsg (st.counter + 1) text, mkAgentMsg (st.counter + 2)],
      running := true, counter := st.counter + 2,
      activeId := some (st.counter + 2), session := st.session }

/-- `handleFileUpload`, successful path (part_001 lines 215–263): guarded by
the running flag; appends the user message with its attachment, establishes
the session, and appends the empty streaming agent message.  The awaited
upload and session creation are collapsed into one transition (during the
await only rejected sends can interleave, which leave the state unchanged). -/
def handleFileUploadOk (st : AppState) (name : String) (size : Nat) : AppState :=
  if st.running then st
  else
    { messages := st.messages ++
        [{ mkUserMsg (st.counter + 1) [] with fileAttachment := some (name, size) },
         mkAgentMsg (st.counter + 2)],
      running := true, counter := st.counter + 2,
      activeId := some (st.counter + 2), session := true }

/-- `handleFileUpload`, failing upload (the catch block, lines 264–279): the
user message was already appended; an error agent message is appended with
the streaming flag never set, and the running flag is cleared. -/
def handleFileUploadErr (st : AppState) (name : String) (size : Nat) (emsg : List Char) : AppState :=
  if st.running then st
  else
    { messages := st.messages ++
        [{ mkUserMsg (st.counter + 1) [] with fileAttachment := some (name, size) },
         { mkAgentMsg (st.counter + 2) with
             text := "**Error:** ".toList ++ emsg, streaming := false }],
      running := false, counter := st.counter + 2,
      activeId := none, session := st.session }

/-- Reachable component states.  Stream-callback transitions carry the
hypothesis that they act on the active turn's message: the callbacks of
`streamResponse` are closure-bound to the agent message id stored in
`agentMessageIdRef` when the turn started. -/
inductive Reachable : AppState → Prop where
  | init : Reachable initApp
  | send (st : AppState) (text : List Char) :
      Reachable st → Reachable (handleSendMessage st text)
  | uploadOk (st : AppState) (name : String) (size : Nat) :
      Reachable st → Reachable (handleFileUploadOk st name size)
  | uploadErr (st : AppState) (name : String) (size : Nat) (emsg : List Char) :
      Reachable st → Reachable (handleFileUploadErr st name size emsg)
  | token (st : AppState) (id : Nat) (tok : List Char) :
      Reachable st → st.activeId = some id → Reachable (appendAgentText st id tok)
  | tool (st : AppState) (id : Nat) (name friendly : String) :
      Reachable st → st.activeId = some id → Reachable (appendToolCall st id name friendly)
  | cleaned (st : AppState) (id : Nat) (path : List Char) :
      Reachable st → st.activeId = some id → Reachable (setCleanedFile st id path)
  | complete (st : AppState) (id : Nat) (full : List Char) :
      Reachable st → st.activeId = some id → Reachable (finalizeAgentMessage st id full)
  | errored (st : AppState) (id : Nat) (emsg : List Char) :
      Reachable st → st.activeId = some id → Reachable (markAgentError st id emsg)

/-- The number of messages currently flagged as streaming. -/
def streamingCount (st : AppState) : Nat :=
  st.messages.countP (fun m => m.streaming)

/-- The inductive invariant of the turn state machine: without a running
turn no message is streaming, every streaming message is the active turn's
message, and at most one message is streaming. -/
def appInv (st : AppState) : Prop :=
  (st.running = false → ∀ m ∈ st.messages, m.streaming = false)
  ∧ (∀ m ∈ st.messages, m.streaming = true → st.activeId = some m.id)
  ∧ streamingCount st ≤ 1

/-! ## Render backpressure coalescer (`streamResponse`, part_001 lines 166–213)

```ts
let pendingTokens = '';
let rafHandle: number | null = null;
const flushTokens = () => {
  if (pendingTokens) { const batch = pendingTokens; pendingTokens = '';
    appendAgentText(agentMsgId, batch); }
  rafHandle = null;
};
onToken: (token) => { pendingTokens += token;
  if (!rafHandle) rafHandle = requestAnimationFrame(flushTokens); },
onComplete: (fullText) => { if (rafHandle) cancelAnimationFrame(rafHandle);
  finalizeAgentMessage(agentMsgId, fullText); ... },
onError: (error) => { if (rafHandle) cancelAnimationFrame(rafHandle);
  markAgentError(agentMsgId, error); ... },
```

The model keeps the coalescer's local state together with the text the
flushes have applied to the target message (`applied`) and the accumulator
`fullText` maintained by `streamAgentMessage` (`full`).  A `flush` event is
the animation-frame callback firing; it can only do work while one is
scheduled.  Arrival/flush timing is an arbitrary interleaving of events. -/

structure CoState where
  pending : List Char
  scheduled : Bool
  applied : List Char
  full : List Char
deriving DecidableEq, Repr

inductive CoEv where
  | tok (s : List Char)
  | flush
deriving DecidableEq, Repr

def coInit : CoState := { pending := [], scheduled := false, applied := [], full := [] }

/-- One coalescer event. -/
def coStep (st : CoState) : CoEv → CoState
  | CoEv.tok s =>
    { st with pending := st.pending ++ s, full := st.full ++ s, scheduled := true }
  | CoEv.flush =>
    if st.scheduled then
      { st with applied := st.applied ++ st.pending, pending := [], scheduled := false }
    else st

/-- Run a sequence of token/flush events from the initial coalescer state. -/
def coRun (evs : List CoEv) : CoState := evs.foldl coStep coInit

/-- The concatenation of all tokens raised in a trace. -/
def toksOf : List CoEv → List Char
  | [] => []
  | CoEv.tok s :: es => s ++ toksOf es
  | CoEv.flush :: es => toksOf es

/-- Terminal transition on stream completion: the scheduled flush (if any)
is cancelled and `finalizeAgentMessage` overwrites the message text with the
full accumulated text.  Returns the final message text. -/
def coComplete (st : CoState) : List Char := st.full

/-- Terminal transition on stream error: the scheduled flush (if any) is
cancelled — without a final flush — and `markAgentError` appends the error
annotation to the text applied so far.  Returns the final message text. -/
def coError (st : CoState) (emsg : List Char) : List Char := st.applied ++ errAnn emsg

/-! ## Event frames and the per-record processing loop (`streamAgentMessage`)

A decoded frame exposes ordered content segments; each segment may carry a
tool-call descriptor, a file reference inside a tool result, and/or a text
fragment (part_000 lines 178–206).  `JSON.parse` is a host primitive: the
processing loop is parameterised by the decode function, and a frame that
fails to decode is `none`.  JavaScript truthiness: an empty text fragment or
an empty `cleaned_file` string is falsy and raises no signal. -/

structure Part where
  fc : Option String
  cleaned : Option (List Char)
  txt : Option (List Char)
deriving DecidableEq, Repr

/-- The friendly-name table (src/unnamed/part_000, lines 45–72). -/
def FRIENDLY_NAMES : List (String × String) :=
  [("load_csv", "Loading CSV into DuckDB"),
   ("inspect_raw_file", "Inspecting raw file"),
   ("normalize_column_names", "Normalizing column names"),
   ("detect_column_overflow", "Detecting column overflow"),
   ("repair_column_overflow", "Repairing column overflow"),
   ("detect_era_in_years", "Detecting era in years"),
   ("extract_era_column", "Extracting era column"),
   ("profile_all_columns", "Profiling all columns"),
   ("audit_all_columns", "Auditing all columns"),
   ("analyze_all_patterns", "Analyzing all patterns"),
   ("get_smart_schema", "Analyzing schema"),
   ("suggest_type_coercion", "Checking column types"),
   ("detect_type_pollution", "Detecting type issues"),
   ("detect_advanced_anomalies", "Scanning for outliers"),
   ("detect_date_formats", "Checking date formats"),
   ("get_value_distribution", "Analyzing value distributions"),
   ("check_column_logic", "Checking column logic"),
   ("query_data", "Querying data"),
   ("preview_full_plan", "Previewing cleaning plan"),
   ("execute_cleaning_plan", "Applying cleaning changes"),
   ("validate_cleaned_data", "Validating cleaned data"),
   ("Profiler", "Running Profiler agent"),
   ("Auditor", "Running Auditor agent"),
   ("PatternExpert", "Running Pattern Expert agent")]

/-- `FRIENDLY_NAMES[name] || \`Running ${name}\``. -/
def friendlyNameOf (name : String) : String :=
  match FRIENDLY_NAMES.lookup name with
  | some f => f
  | none => "Running " ++ name

/-- Process one content segment, in the source's order: tool call, then file
reference, then text fragment.  The accumulator carries the app state and
the `fullText` accumulator of `streamAgentMessage`.  Token signals reach the
message text only through the coalescer and are overwritten by finalization,
so only their accumulation into `fullText` is tracked here. -/
def processPart (id : Nat) (acc : AppState × List Char) (p : Part) : AppState × List Char :=
  let st1 :=
    match p.fc with
    | some name => appendToolCall acc.1 id name (friendlyNameOf name)
    | none => acc.1
  let st2 :=
    match p.cleaned with
    | some path => if path.isEmpty then st1 else setCleanedFile st1 id path
    | none => st1
  let full2 :=
    match p.txt with
    | some s => if s.isEmpty then acc.2 else acc.2 ++ s
    | none => acc.2
  (st2, full2)

/-- Process one complete line from the transport: ignore lines without the
`data: ` envelope, trim the payload, skip empty payloads, silently skip
records the decoder rejects, and walk the segments of a decoded frame. -/
def processLine (decode : List Char → Option (List Part)) (id : Nat)
    (acc : AppState × List Char) (line : List Char) : AppState × List Char :=
  if !listStarts "data: ".toList line then acc
  else
    let payload := trimStr (line.drop 6)
    if payload.isEmpty then acc
    else
      match decode payload with
      | none => acc
      | some parts => parts.foldl (processPart id) acc

/-- The text fragments raised by the segments of one frame, concatenated. -/
def partToks : List Part → List Char
  | [] => []
  | p :: ps =>
    (match p.txt with
     | some s => if s.isEmpty then [] else s
     | none => []) ++ partToks ps

/-- The text raised while processing one line (empty for non-envelope lines,
empty payloads and undecodable records). -/
def lineToks (decode : List Char → Option (List Part)) (line : List Char) : List Char :=
  if !listStarts "data: ".toList line then []
  else if (trimStr (line.drop 6)).isEmpty then []
  else
    match decode (trimStr (line.drop 6)) with
    | none => []
    | some parts => partToks parts

/-- The concatenation of all text fragments a line sequence raises (the
value `fullText` holds when the stream ends). -/
def tokenConcat (decode : List Char → Option (List Part)) (lines : List (List Char)) : List Char :=
  (lines.map (lineToks decode)).flatten

/-- Run a whole successful stream against the active message: process every
complete line, then finalize with the accumulated full text. -/
def runStream (decode : List Char → Option (List Part)) (st : AppState) (id : Nat)
    (lines : List (List Char)) : AppState :=
  let acc := lines.foldl (processLine decode id) (st, [])
  finalizeAgentMessage acc.1 id acc.2

/-- Look a message up by id (first match, as React's keyed list update). -/
def getMsg (st : AppState) (id : Nat) : Option Msg :=
  st.messages.find? (fun m => m.id == id)

/-! ## Transport line reader (part_000, lines 164–213)

```ts
let fullText = '';
const reader = res.body!.getReader();
const decoder = new TextDecoder();
let buffer = '';
while (true) {
  const { done, value } = await reader.read();
  if (done) break;
  buffer += decoder.decode(value, { stream: true });
  const lines = buffer.split('\n');
  buffer = lines.pop() || '';
  for (const line of lines) { ... }
}
```

Bytes and code points are natural numbers.  `TextDecoder` in streaming mode
keeps the trailing bytes of an incomplete multi-byte sequence and prepends
them to the next chunk; the model's decoder does the same.  The loop then
splits the decoded text on `'\n'` (code point 10), keeps the final piece as
carry-over, and at end-of-source discards both the carry-over text and any
pending decoder bytes — a trailing record with no terminator is never
processed.  The theorems restrict to byte streams that are valid UTF-8
(encodings of code-point sequences), which is what the SSE transport
delivers; the replacement-character path of the host decoder is therefore
never exercised and is modelled minimally. -/

/-- UTF-8 encoding of one code point (`n < 0x110000`). -/
def utf8EncodeCp (n : Nat) : List Nat :=
  if n < 0x80 then [n]
  else if n < 0x800 then [0xC0 + n / 64, 0x80 + n % 64]
  else if n < 0x10000 then [0xE0 + n / 4096, 0x80 + n / 64 % 64, 0x80 + n % 64]
  else [0xF0 + n / 262144, 0x80 + n / 4096 % 64, 0x80 + n / 64 % 64, 0x80 + n % 64]

/-- UTF-8 encoding of a code-point sequence. -/
def utf8Encode (l : List Nat) : List Nat := (l.map utf8EncodeCp).flatten

/-- Expected sequence length from a leading byte (0 for a byte that cannot
lead a sequence). -/
def utf8LeadLen (b : Nat) : Nat :=
  if b < 0x80 then 1
  else if b < 0xC0 then 0
  else if b < 0xE0 then 2
  else if b < 0xF0 then 3
  else if b < 0xF8 then 4
  else 0

/-- Decode one complete, aligned UTF-8 sequence. -/
def decCp : List Nat → Nat
  | [b0] => b0
  | [b0, b1] => (b0 - 0xC0) * 64 + (b1 - 0x80)
  | [b0, b1, b2] => (b0 - 0xE0) * 4096 + (b1 - 0x80) * 64 + (b2 - 0x80)
  | [b0, b1, b2, b3] =>
      (b0 - 0xF0) * 262144 + (b1 - 0x80) * 4096 + (b2 - 0x80) * 64 + (b3 - 0x80)
  | _ => 0xFFFD

/-- Streaming decode step: extract all complete code points from the front
of `bs`, returning them plus the pending incomplete tail.  Fuelled (the
wrapper always supplies fuel ≥ length; each recursive call drops at least
one byte).  A byte that cannot lead a sequence yields the replacement
character — unreachable on valid streams. -/
def decodeAllF : Nat → List Nat → List Nat × List Nat
  | _, [] => ([], [])
  | 0, bs => ([], bs)
  | fuel + 1, b :: rest =>
    let len := utf8LeadLen b
    if len = 0 then
      let r := decodeAllF fuel rest
      (0xFFFD :: r.1, r.2)
    else if rest.length + 1 < len then ([], b :: rest)
    else
      let r := decodeAllF fuel (List.drop (len - 1) rest)
      (decCp (List.take len (b :: rest)) :: r.1, r.2)

/-- Decode all complete code points from the front of a byte list. -/
def decodeAll (bs : List Nat) : List Nat × List Nat := decodeAllF bs.length bs

/-- `String.prototype.split('\n')` on code points: always returns at least
one piece; pieces do not contain the terminator. -/
def splitNl : List Nat → List (List Nat)
  | [] => [[]]
  | c :: rest =>
    if c = 10 then [] :: splitNl rest
    else
      match splitNl rest with
      | [] => [[c]]
      | h :: ts => (c :: h) :: ts

/-- The reader's loop state: complete records emitted so far, the carry-over
text after the last terminator, and the decoder's pending bytes. -/
structure RdState where
  emitted : List (List Nat)
  buffer : List Nat
  pend : List Nat
deriving DecidableEq, Repr

def rdInit : RdState := { emitted := [], buffer := [], pend := [] }

/-- Process one chunk delivered by a read: streaming-decode the pending
bytes plus the chunk, append to the carry-over, split on `'\n'`, emit every
complete record and keep the last piece. -/
def rdStep (st : RdState) (chunk : List Nat) : RdState :=
  let d := decodeAll (st.pend ++ chunk)
  let parts := splitNl (st.buffer ++ d.1)
  { emitted := st.emitted ++ parts.dropLast,
    buffer := parts.getLastD [],
    pend := d.2 }

/-- Run the reader over a chunked byte stream; at end-of-source the
carry-over and pending bytes are discarded, only emitted records remain. -/
def readLines (chunks : List (List Nat)) : List (List Nat) :=
  (chunks.foldl rdStep rdInit).emitted

/-- The decoder-state invariant: the pending bytes are empty or a proper
non-empty prefix of the encoding of the next code point of the remaining
text `d`. -/
def IncompleteFor (p : List Nat) (d : List Nat) : Prop :=
  p = [] ∨
    ∃ m ms, d = m :: ms ∧ m < 0x110000 ∧ p ≠ [] ∧
      ∃ q, q ≠ [] ∧ p ++ q = utf8EncodeCp m

/-- The reader-loop invariant tying the consumed bytes, the decoder pending
bytes, and the emitted-records/carry-over pair to the source text. -/
def RdInv (text consumed : List Nat) (st : RdState) : Prop :=
  ∃ d₁ d₂, text = d₁ ++ d₂ ∧ consumed = utf8Encode d₁ ++ st.pend ∧
    IncompleteFor st.pend d₂ ∧ st.emitted ++ [st.buffer] = splitNl d₁

/-! # Theorems -/

/-! ## Trimming lemmas -/

lemma trimRight_split (a : List Char) :
    trimRight a ++ (a.reverse.takeWhile isWsC).reverse = a := by
  have h := List.takeWhile_append_dropWhile isWsC a.reverse
  calc trimRight a ++ (a.reverse.takeWhile isWsC).reverse
      = (a.reverse.takeWhile isWsC ++ a.reverse.dropWhile isWsC).reverse := by
        rw [List.reverse_append]; rfl
    _ = a.reverse.reverse := by rw [h]
    _ = a := List.reverse_reverse a

lemma trimRight_app (a w : List Char) :
    ∃ u, trimRight a ++ u = trimRight (a ++ w) := by
  have hr : (a ++ w).reverse = w.reverse ++ a.reverse := by
    simp [List.reverse_append]
  by_cases he : (w.reverse.dropWhile isWsC).isEmpty = true
  · refine ⟨[], ?_⟩
    show trimRight a ++ [] = ((a ++ w).reverse.dropWhile isWsC).reverse
    rw [List.append_nil, hr, List.dropWhile_append, if_pos he]
    rfl
  · refine ⟨(a.reverse.takeWhile isWsC).reverse ++ (w.reverse.dropWhile isWsC).reverse, ?_⟩
    have hs := trimRight_split a
    calc trimRight a ++
          ((a.reverse.takeWhile isWsC).reverse ++ (w.reverse.dropWhile isWsC).reverse)
        = (trimRight a ++ (a.reverse.takeWhile isWsC).reverse) ++
            (w.reverse.dropWhile isWsC).reverse := by
          rw [List.append_assoc]
      _ = a ++ (w.reverse.dropWhile isWsC).reverse := by rw [hs]
      _ = trimRight (a ++ w) := by
          show _ = ((a ++ w).reverse.dropWhile isWsC).reverse
          rw [hr, List.dropWhile_append, if_neg he, List.reverse_append,
            List.reverse_reverse]

lemma trimLeft_app (a w : List Char) :
    (trimLeft a = [] ∧ trimLeft (a ++ w) = trimLeft w) ∨
      trimLeft (a ++ w) = trimLeft a ++ w := by
  by_cases he : (a.dropWhile isWsC).isEmpty = true
  · left
    constructor
    · simpa [trimLeft, List.isEmpty_iff] using he
    · simp only [trimLeft, List.dropWhile_append, he, if_pos]
  · right
    simp only [trimLeft, List.dropWhile_append, he, if_neg, Bool.false_eq_true, not_false_iff]

lemma trimStr_app (a w : List Char) :
    ∃ u, trimStr a ++ u = trimStr (a ++ w) := by
  rcases trimLeft_app a w with ⟨h1, h2⟩ | h
  · exact ⟨trimStr (a ++ w), by simp [trimStr, h1, trimRight]⟩
  · rcases trimRight_app (trimLeft a) w with ⟨u, hu⟩
    exact ⟨u, by rw [trimStr, trimStr, h]; exact hu⟩

lemma trimStr_take (n : Nat) (t : List Char) :
    ∃ u, trimStr (t.take n) ++ u = trimStr t := by
  have h := trimStr_app (t.take n) (t.drop n)
  rwa [List.take_append_drop] at h

lemma dropWhile_idem (p : Char → Bool) (l : List Char) :
    List.dropWhile p (List.dropWhile p l) = List.dropWhile p l := by
  induction l with
  | nil => rfl
  | cons c cs ih =>
    by_cases h : p c = true
    · simp [List.dropWhile_cons, h, ih]
    · simp [List.dropWhile_cons, h]

lemma trimRight_idem (l : List Char) : trimRight (trimRight l) = trimRight l := by
  simp [trimRight, List.reverse_reverse, dropWhile_idem]

lemma trimLeft_head (l : List Char) :
    trimLeft l = [] ∨ ∃ c r, trimLeft l = c :: r ∧ isWsC c = false := by
  induction l with
  | nil => left; rfl
  | cons c cs ih =>
    by_cases h : isWsC c = true
    · simpa [trimLeft, List.dropWhile_cons, h] using ih
    · right
      exact ⟨c, cs, by simp [trimLeft, List.dropWhile_cons, h], by simpa using h⟩

lemma trimStr_idem (t : List Char) : trimStr (trimStr t) = trimStr t := by
  rcases trimLeft_head t with h | ⟨c, r, hc, hw⟩
  · have h0 : trimStr t = [] := by rw [trimStr, h]; rfl
    rw [h0]; rfl
  · show trimRight (trimLeft (trimRight (trimLeft t))) = trimRight (trimLeft t)
    rcases htr : trimRight (trimLeft t) with _ | ⟨d, s⟩
    · rfl
    · have hsplit := trimRight_split (trimLeft t)
      rw [htr, hc] at hsplit
      have hd : d = c := by
        have hh := congrArg (fun l => l.head?) hsplit
        simpa using hh
      have hstep : trimLeft (d :: s) = d :: s := by
        simp [trimLeft, List.dropWhile_cons, hd, hw]
      rw [hstep, ← htr, trimRight_idem]

/-! ## Shapes of the truncator's outputs -/

lemma secLoop_shape (tr : List Char) :
    ∀ fuel sp r, secLoop tr sp fuel = some r → ∃ n, r = trimStr (tr.take n) := by
  intro fuel
  induction fuel with
  | zero => intro sp r h; simp [secLoop] at h
  | succ f ih =>
    intro sp r h
    simp only [secLoop] at h
    split at h
    · exact ⟨sp, by cases h; rfl⟩
    · exact ih (sp + 1) r h

lemma dedupPrimary_shape {t r : List Char} (h : dedupPrimary t = some r) :
    ∃ n, r = trimStr (t.take n) := by
  unfold dedupPrimary at h
  rcases hs : scanExec t with _ | ⟨i₁, _ | ⟨i₂, rest⟩⟩ <;> rw [hs] at h <;>
    simp at h
  exact ⟨i₂, h.symm⟩

lemma dedupSecondary_shape {t r : List Char} (h : dedupSecondary t = some r) :
    ∃ n, r = trimStr ((trimStr t).take n) := by
  unfold dedupSecondary at h
  split at h
  · simp at h
  · exact secLoop_shape (trimStr t) _ _ r h

lemma dedup_pre (t : List Char) :
    deduplicateReport t = t ∨ ∃ u, deduplicateReport t ++ u = trimStr t := by
  unfold deduplicateReport
  rcases hp : dedupPrimary t with _ | r
  · rcases hs : dedupSecondary t with _ | r
    · left; rfl
    · right
      rcases dedupSecondary_shape hs with ⟨n, hn⟩
      rcases trimStr_take n (trimStr t) with ⟨u, hu⟩
      rw [trimStr_idem] at hu
      exact ⟨u, by rw [hn]; exact hu⟩
  · right
    rcases dedupPrimary_shape hp with ⟨n, hn⟩
    rcases trimStr_take n t with ⟨u, hu⟩
    exact ⟨u, by rw [hn]; exact hu⟩

lemma dedup_out_trim (t : List Char) :
    deduplicateReport t = t ∨ trimStr (deduplicateReport t) = deduplicateReport t := by
  unfold deduplicateReport
  rcases hp : dedupPrimary t with _ | r
  · rcases hs : dedupSecondary t with _ | r
    · left; rfl
    · right
      rcases dedupSecondary_shape hs with ⟨n, hn⟩
      rw [hn, trimStr_idem]
  · right
    rcases dedupPrimary_shape hp with ⟨n, hn⟩
    rw [hn, trimStr_idem]

/-! ## C4 — idempotence of the duplicate-content truncator -/

/-- C4 counterexample: on a text consisting of the same 12-character block
four times, the secondary strategy halves the text, and halves it again on a
second application — `deduplicateReport` is not idempotent. -/
theorem C4_counterexample :
    deduplicateReport
        (deduplicateReport "abcdefghijklabcdefghijklabcdefghijklabcdefghijkl".toList) ≠
      deduplicateReport "abcdefghijklabcdefghijklabcdefghijklabcdefghijkl".toList := by
  decide

/-- C4 (amended): a second application of the truncator either returns the
first result unchanged or truncates it further — `deduplicateReport
(deduplicateReport t)` always extends to `deduplicateReport t`, but the two
need not be equal (idempotence fails when the secondary split-point strategy
fires on the first result). -/
theorem C4_amended (t : List Char) :
    deduplicateReport (deduplicateReport t) = deduplicateReport t ∨
      ∃ u, deduplicateReport (deduplicateReport t) ++ u = deduplicateReport t := by
  rcases dedup_out_trim t with h | h
  · left
    rw [h]
    exact h
  · rcases dedup_pre (deduplicateReport t) with h2 | ⟨u, hu⟩
    · left; exact h2
    · right
      exact ⟨u, by rwa [h] at hu⟩

/-! ## C10 — the truncator only truncates -/

/-- C10: `deduplicateReport` never adds, reorders or rewrites content — its
result is the input itself or an initial segment of the trimmed input; and
the secondary split-point scan cannot fire when the trimmed text has at most
20 characters. -/
theorem C10_truncator_shrink (t : List Char) :
    (deduplicateReport t = t ∨ ∃ u, deduplicateReport t ++ u = trimStr t) ∧
      ((trimStr t).length ≤ 20 → dedupSecondary t = none) := by
  refine ⟨dedup_pre t, fun h => ?_⟩
  unfold dedupSecondary
  simp only [if_pos h]

/-- Witness for C10 at a concrete short input. -/
theorem C10_truncator_shrink_witness : dedupSecondary "Done!".toList = none :=
  (C10_truncator_shrink "Done!".toList).2 (by decide)

/-! ## C8 — report classifier -/

lemma hashWs_shapes (l : List Char) :
    hashWs l = true ↔
      (∃ c r, l = '#' :: c :: r ∧ isWsC c = true) ∨
      (∃ c r, l = '#' :: '#' :: c :: r ∧ isWsC c = true) ∨
      (∃ c r, l = '#' :: '#' :: '#' :: c :: r ∧ isWsC c = true) := by
  constructor
  · intro h
    match l with
    | [] => simp [hashWs] at h
    | [c0] => simp [hashWs] at h
    | c0 :: c1 :: r2 =>
      simp only [hashWs] at h
      by_cases h0 : c0 = '#'
      · subst h0
        rw [if_pos (by simp)] at h
        by_cases hw1 : isWsC c1 = true
        · exact Or.inl ⟨c1, r2, rfl, hw1⟩
        · rw [if_neg (by simpa using hw1)] at h
          by_cases h1 : c1 = '#'
          · subst h1
            rw [if_pos (by simp)] at h
            match r2 with
            | [] => simp at h
            | c2 :: r3 =>
              dsimp only at h
              by_cases hw2 : isWsC c2 = true
              · exact Or.inr (Or.inl ⟨c2, r3, rfl, hw2⟩)
              · rw [if_neg (by simpa using hw2)] at h
                by_cases h2 : c2 = '#'
                · subst h2
                  rw [if_pos (by simp)] at h
                  match r3 with
                  | [] => simp at h
                  | c3 :: r4 =>
                    dsimp only at h
                    exact Or.inr (Or.inr ⟨c3, r4, rfl, h⟩)
                · rw [if_neg (by simpa using h2)] at h
                  simp at h
          · rw [if_neg (by simpa using h1)] at h
            simp at h
      · rw [if_neg (by simpa using h0)] at h
        simp at h
  · rintro (⟨c, r, rfl, hw⟩ | ⟨c, r, rfl, hw⟩ | ⟨c, r, rfl, hw⟩)
    · simp [hashWs, hw]
    · have : isWsC '#' = false := by decide
      simp [hashWs, this, hw]
    · have : isWsC '#' = false := by decide
      simp [hashWs, this, hw]

lemma headerK_shapes (l : List Char) :
    (∃ k, 1 ≤ k ∧ k ≤ 3 ∧ l.take k = List.replicate k '#' ∧
        ∃ c rest, l.drop k = c :: rest ∧ isWsC c = true) ↔
      (∃ c r, l = '#' :: c :: r ∧ isWsC c = true) ∨
      (∃ c r, l = '#' :: '#' :: c :: r ∧ isWsC c = true) ∨
      (∃ c r, l = '#' :: '#' :: '#' :: c :: r ∧ isWsC c = true) := by
  constructor
  · rintro ⟨k, hk1, hk3, htake, c, rest, hdrop, hw⟩
    have hl : l = l.take k ++ l.drop k := (List.take_append_drop k l).symm
    rw [htake, hdrop] at hl
    interval_cases k
    · exact Or.inl ⟨c, rest, by simpa using hl, hw⟩
    · exact Or.inr (Or.inl ⟨c, rest, by simpa using hl, hw⟩)
    · exact Or.inr (Or.inr ⟨c, rest, by simpa using hl, hw⟩)
  · rintro (⟨c, r, rfl, hw⟩ | ⟨c, r, rfl, hw⟩ | ⟨c, r, rfl, hw⟩)
    · exact ⟨1, by norm_num, by norm_num, rfl, c, r, rfl, hw⟩
    · exact ⟨2, by norm_num, by norm_num, rfl, c, r, rfl, hw⟩
    · exact ⟨3, by norm_num, by norm_num, rfl, c, r, rfl, hw⟩

/-- C8: the report classifier returns `true` exactly when the text exceeds
500 characters or some line starts with one to three `#` characters followed
by a whitespace character; in particular a 600-character plain string is a
report, a 50-character plain string is not, and a 30-character string
starting with `## Summary` is a report. -/
theorem C8_report_classifier :
    (∀ t : List Char, isReportMessage t = true ↔
      (500 < t.length ∨ ∃ l ∈ linesKeep t, ∃ k, 1 ≤ k ∧ k ≤ 3 ∧
        l.take k = List.replicate k '#' ∧
        ∃ c rest, l.drop k = c :: rest ∧ isWsC c = true))
    ∧ isReportMessage (List.replicate 600 'a') = true
    ∧ isReportMessage (List.replicate 50 'a') = false
    ∧ isReportMessage ("## Summary".toList ++ List.replicate 20 'a') = true := by
  refine ⟨fun t => ?_, by decide, by decide, by decide⟩
  simp only [isReportMessage, Bool.or_eq_true, decide_eq_true_eq, List.any_eq_true]
  exact or_congr Iff.rfl
    (exists_congr fun l =>
      and_congr Iff.rfl ((hashWs_shapes l).trans (headerK_shapes l).symm))

/-! ## C6 — best-report selector -/

lemma bestFold_eq (msgs : List Msg) (b : List Char) :
    msgs.foldl
        (fun best m =>
          if isCandidate m && best.length < m.text.length then m.text else best) b =
      (candidateTexts msgs).foldl pickLonger b := by
  induction msgs generalizing b with
  | nil => rfl
  | cons m ms ih =>
    by_cases hc : isCandidate m = true
    · rw [List.foldl_cons, ih (if (isCandidate m && b.length < m.text.length) = true
        then m.text else b)]
      have hcts : candidateTexts (m :: ms) = m.text :: candidateTexts ms := by
        simp [candidateTexts, List.filter_cons, hc]
      rw [hcts, List.foldl_cons]
      congr 1
      simp [pickLonger, hc]
    · rw [List.foldl_cons, ih (if (isCandidate m && b.length < m.text.length) = true
        then m.text else b)]
      have hcts : candidateTexts (m :: ms) = candidateTexts ms := by
        simp [candidateTexts, List.filter_cons, hc]
      rw [hcts]
      congr 1
      simp [Bool.and_eq_true, hc]

lemma bestReportText_eq (msgs : List Msg) :
    bestReportText msgs = (candidateTexts msgs).foldl pickLonger [] :=
  bestFold_eq msgs []

lemma pickFold_spec (ts : List (List Char)) (b : List Char) :
    (ts.foldl pickLonger b = b ∧ ∀ t ∈ ts, t.length ≤ b.length) ∨
      (∃ i : Fin ts.length,
        ts.foldl pickLonger b = ts.get i ∧ b.length < (ts.get i).length ∧
        (∀ t ∈ ts, t.length ≤ (ts.get i).length) ∧
        ∀ j : Fin ts.length, j.val < i.val → (ts.get j).length < (ts.get i).length) := by
  induction ts generalizing b with
  | nil =>
    left
    exact ⟨rfl, by simp⟩
  | cons t ts ih =>
    by_cases hbt : b.length < t.length
    · have hstep : List.foldl pickLonger b (t :: ts) = List.foldl pickLonger t ts := by
        simp [List.foldl_cons, pickLonger, hbt]
      rcases ih t with ⟨heq, hall⟩ | ⟨i, heq, hlt, hall, hfirst⟩
      · right
        refine ⟨⟨0, by simp⟩, ?_, ?_, ?_, ?_⟩
        · rw [hstep, heq]
          rfl
        · exact hbt
        · intro t' ht'
          rcases List.mem_cons.mp ht' with rfl | hmem
          · exact le_rfl
          · exact hall t' hmem
        · intro j hj
          exact absurd hj (Nat.not_lt_zero _)
      · right
        refine ⟨⟨i.val + 1, Nat.succ_lt_succ i.isLt⟩, ?_, ?_, ?_, ?_⟩
        · rw [hstep, heq, List.get_cons_succ]
        · rw [List.get_cons_succ]
          exact hbt.trans hlt
        · intro t' ht'
          rw [List.get_cons_succ]
          rcases List.mem_cons.mp ht' with rfl | hmem
          · exact le_of_lt hlt
          · exact hall t' hmem
        · rintro ⟨jv, hjv⟩ hj
          match jv, hjv with
          | 0, _ =>
            rw [List.get_cons_succ]
            exact hlt
          | n + 1, hn =>
            rw [List.get_cons_succ, List.get_cons_succ]
            exact hfirst ⟨n, by simpa using hn⟩ (by simpa using hj)
    · have hstep : List.foldl pickLonger b (t :: ts) = List.foldl pickLonger b ts := by
        simp [List.foldl_cons, pickLonger, hbt]
      rcases ih b with ⟨heq, hall⟩ | ⟨i, heq, hlt, hall, hfirst⟩
      · left
        refine ⟨hstep.trans heq, ?_⟩
        intro t' ht'
        rcases List.mem_cons.mp ht' with rfl | hmem
        · exact Nat.le_of_not_lt hbt
        · exact hall t' hmem
      · right
        refine ⟨⟨i.val + 1, Nat.succ_lt_succ i.isLt⟩, ?_, ?_, ?_, ?_⟩
        · rw [hstep, heq, List.get_cons_succ]
        · rw [List.get_cons_succ]
          exact hlt
        · intro t' ht'
          rw [List.get_cons_succ]
          rcases List.mem_cons.mp ht' with rfl | hmem
          · exact le_of_lt ((Nat.le_of_not_lt hbt).trans_lt hlt)
          · exact hall t' hmem
        · rintro ⟨jv, hjv⟩ hj
          match jv, hjv with
          | 0, _ =>
            rw [List.get_cons_succ]
            exact (Nat.le_of_not_lt hbt).trans_lt hlt
          | n + 1, hn =>
            rw [List.get_cons_succ, List.get_cons_succ]
            exact hfirst ⟨n, by simpa using hn⟩ (by simpa using hj)

lemma candidateTexts_ne_nil_mem {msgs : List Msg} {t : List Char}
    (ht : t ∈ candidateTexts msgs) : t ≠ [] := by
  rcases List.mem_map.mp ht with ⟨m, hm, rfl⟩
  have hc := List.of_mem_filter hm
  have : (!m.text.isEmpty) = true := by
    simp only [isCandidate, Bool.and_eq_true] at hc
    exact hc.1.2
  simpa [List.isEmpty_iff] using this

/-- C6: the best-report selector returns the text of a candidate message
(agent role, not streaming, non-empty, report-classified) of maximum length,
keeping the first-found maximum on ties; in particular for three candidate
messages of lengths 800, 1200 and 400, in any order in the history, the
1200-length one is selected. -/
theorem C6_best_report_selector (msgs : List Msg) :
    (∀ t ∈ candidateTexts msgs, t.length ≤ (bestReportText msgs).length)
    ∧ (candidateTexts msgs = [] → bestReportText msgs = [])
    ∧ (candidateTexts msgs ≠ [] →
        ∃ i : Fin (candidateTexts msgs).length,
          bestReportText msgs = (candidateTexts msgs).get i ∧
          ∀ j : Fin (candidateTexts msgs).length, j.val < i.val →
            ((candidateTexts msgs).get j).length < (bestReportText msgs).length)
    ∧ (∀ m1 m2 m3 : Msg, msgs.Perm [m1, m2, m3] →
        isCandidate m1 = true → isCandidate m2 = true → isCandidate m3 = true →
        m1.text.length = 800 → m2.text.length = 1200 → m3.text.length = 400 →
        bestReportText msgs = m2.text) := by
  have hb := bestReportText_eq msgs
  have hspec := pickFold_spec (candidateTexts msgs) []
  have hbound : ∀ t ∈ candidateTexts msgs, t.length ≤ (bestReportText msgs).length := by
    rcases hspec with ⟨heq, hall⟩ | ⟨i, heq, _, hall, _⟩
    · intro t ht
      rw [hb, heq]
      exact hall t ht
    · intro t ht
      rw [hb, heq]
      exact hall t ht
  have hsel : candidateTexts msgs ≠ [] →
      ∃ i : Fin (candidateTexts msgs).length,
        bestReportText msgs = (candidateTexts msgs).get i ∧
        ∀ j : Fin (candidateTexts msgs).length, j.val < i.val →
          ((candidateTexts msgs).get j).length < (bestReportText msgs).length := by
    intro hne
    rcases hspec with ⟨heq, hall⟩ | ⟨i, heq, _, _, hfirst⟩
    · exfalso
      rcases List.exists_mem_of_ne_nil _ hne with ⟨t, ht⟩
      have h1 := hall t ht
      have h2 := candidateTexts_ne_nil_mem ht
      simp only [List.length_nil, Nat.le_zero] at h1
      exact h2 (List.length_eq_zero.mp h1)
    · refine ⟨i, by rw [hb, heq], ?_⟩
      intro j hj
      rw [hb, heq]
      exact hfirst j hj
  refine ⟨hbound, ?_, hsel, ?_⟩
  · intro h
    rw [hb, h]
    rfl
  · intro m1 m2 m3 hperm hc1 hc2 hc3 hl1 hl2 hl3
    have hcperm : (candidateTexts msgs).Perm (candidateTexts [m1, m2, m3]) := by
      unfold candidateTexts
      exact (hperm.filter isCandidate).map (fun m : Msg => m.text)
    have hc3texts : candidateTexts [m1, m2, m3] = [m1.text, m2.text, m3.text] := by
      simp [candidateTexts, List.filter_cons, hc1, hc2, hc3]
    have hmem2 : m2.text ∈ candidateTexts msgs := by
      rw [hcperm.mem_iff, hc3texts]
      simp
    have hne : candidateTexts msgs ≠ [] := by
      intro h
      rw [h] at hmem2
      simp at hmem2
    rcases hsel hne with ⟨i, heq, _⟩
    have hbestmem : bestReportText msgs ∈ candidateTexts msgs := by
      rw [heq]
      exact List.get_mem _ _ _
    have hbest3 : bestReportText msgs ∈ [m1.text, m2.text, m3.text] := by
      rw [← hc3texts, ← hcperm.mem_iff]
      exact hbestmem
    have hle : 1200 ≤ (bestReportText msgs).length := by
      have := hbound m2.text hmem2
      omega
    rcases List.mem_cons.mp hbest3 with h | h
    · exfalso
      rw [h, hl1] at hle
      omega
    rcases List.mem_cons.mp h with h2 | h2
    · exact h2
    rcases List.mem_cons.mp h2 with h3 | h3
    · exfalso
      rw [h3, hl3] at hle
      omega
    · simp at h3

/-! ## C1 — the coalescer at terminal states -/

lemma coFold_full (evs : List CoEv) (st : CoState) :
    (evs.foldl coStep st).full = st.full ++ toksOf evs := by
  induction evs generalizing st with
  | nil => simp [toksOf]
  | cons e es ih =>
    cases e with
    | tok s =>
      rw [List.foldl_cons, ih]
      simp [coStep, toksOf]
    | flush =>
      rw [List.foldl_cons, ih]
      by_cases hs : st.scheduled <;> simp [coStep, toksOf, hs]

lemma coFold_inv (evs : List CoEv) (st : CoState)
    (h : st.applied ++ st.pending = st.full) :
    (evs.foldl coStep st).applied ++ (evs.foldl coStep st).pending =
      (evs.foldl coStep st).full := by
  induction evs generalizing st with
  | nil => exact h
  | cons e es ih =>
    cases e with
    | tok s =>
      rw [List.foldl_cons]
      exact ih _ (by simp [coStep, ← List.append_assoc, h])
    | flush =>
      rw [List.foldl_cons]
      by_cases hs : st.scheduled
      · exact ih _ (by simp [coStep, hs, h])
      · exact ih _ (by simp [coStep, hs, h])

/-- C1 counterexample: with one raised token still buffered when the stream
errors, the code cancels the scheduled flush and appends the error
annotation without a final flush — the flushed text is empty and the final
message text does not contain the token, so the concatenation of applied
text differs from the concatenation of raised tokens. -/
theorem C1_counterexample :
    toksOf [CoEv.tok ['x']] = ['x']
    ∧ (coRun [CoEv.tok ['x']]).applied = []
    ∧ coError (coRun [CoEv.tok ['x']]) "network error".toList =
        errAnn "network error".toList
    ∧ errAnn "network error".toList ≠ ['x'] ++ errAnn "network error".toList := by
  decide

/-- C1 (amended): on completion the final message text always equals the
concatenation of all raised tokens (the cancelled flush is compensated by
the overwrite with the full accumulated text), for any arrival and flush
timing; on error, however, only a prefix of the raised tokens — the part
already flushed — survives, followed by the error annotation: the
buffered-but-unflushed suffix is dropped. -/
theorem C1_amended (evs : List CoEv) (emsg : List Char) :
    coComplete (coRun evs) = toksOf evs
    ∧ ∃ a p, toksOf evs = a ++ p ∧ coError (coRun evs) emsg = a ++ errAnn emsg := by
  have hfull : (coRun evs).full = toksOf evs := by
    have h := coFold_full evs coInit
    simpa [coRun, coInit] using h
  have hinv : (coRun evs).applied ++ (coRun evs).pending = (coRun evs).full :=
    coFold_inv evs coInit (by simp [coInit])
  refine ⟨hfull, (coRun evs).applied, (coRun evs).pending, ?_, rfl⟩
  rw [hinv, hfull]

/-! ## C2 — the streaming → finalized transition -/

lemma foldl_processPart_snd (id : Nat) (parts : List Part) (acc : AppState × List Char) :
    (parts.foldl (processPart id) acc).2 = acc.2 ++ partToks parts := by
  induction parts generalizing acc with
  | nil => simp [partToks]
  | cons p ps ih =>
    rw [List.foldl_cons, ih]
    cases htxt : p.txt with
    | none => simp [processPart, partToks, htxt]
    | some s =>
      by_cases hs : s.isEmpty <;>
        simp [processPart, partToks, htxt, hs, List.append_assoc]

lemma foldl_processLine_snd (decode : List Char → Option (List Part)) (id : Nat)
    (lines : List (List Char)) (acc : AppState × List Char) :
    (lines.foldl (processLine decode id) acc).2 = acc.2 ++ tokenConcat decode lines := by
  induction lines generalizing acc with
  | nil => simp [tokenConcat]
  | cons line ls ih =>
    rw [List.foldl_cons, ih]
    have hstep : (processLine decode id acc line).2 = acc.2 ++ lineToks decode line := by
      unfold processLine lineToks
      by_cases h1 : listStarts ['d', 'a', 't', 'a', ':', ' '] line = true
      · by_cases h2 : (trimStr (line.drop 6)).isEmpty = true
        · simp [h1, h2]
        · cases hdec : decode (trimStr (line.drop 6)) with
          | none => simp [h1, h2, hdec]
          | some parts => simp [h1, h2, hdec, foldl_processPart_snd]
      · simp [h1]
    rw [hstep]
    simp [tokenConcat, List.append_assoc]

/-- C2 counterexample: the finalization transition stores the accumulated
text verbatim; on a full text containing a duplicated Executive-Summary
header the stored text is not equal to its duplicate-content truncation, so
truncation is not applied at the streaming → finalized transition. -/
theorem C2_counterexample :
    (getMsg
        (finalizeAgentMessage (handleFileUploadOk initApp "x.csv" 3) 2
          ("## Executive Summary A ## Executive Summary A".toList)) 2).map Msg.text
      = some ("## Executive Summary A ## Executive Summary A".toList)
    ∧ deduplicateReport ("## Executive Summary A ## Executive Summary A".toList)
      ≠ "## Executive Summary A ## Executive Summary A".toList := by
  decide

/-- C2 (amended): when a stream completes, the finalization transition
writes the message's stored text exactly once, storing the accumulated token
concatenation verbatim (duplicate-content truncation is applied on demand by
consumers, not at finalization), and clears the streaming flag in the same
transition. -/
theorem C2_amended (decode : List Char → Option (List Part)) (st : AppState)
    (id : Nat) (lines : List (List Char)) (m : Msg)
    (hm : m ∈ (runStream decode st id lines).messages) (hid : m.id = id) :
    m.text = tokenConcat decode lines ∧ m.streaming = false := by
  unfold runStream at hm
  set acc := lines.foldl (processLine decode id) (st, []) with hacc
  have hsnd : acc.2 = tokenConcat decode lines := by
    rw [hacc, foldl_processLine_snd]
    simp
  simp only [finalizeAgentMessage, List.mem_map] at hm
  rcases hm with ⟨m₀, _, rfl⟩
  by_cases h0 : m₀.id = id
  · rw [if_pos h0]
    exact ⟨hsnd, rfl⟩
  · exfalso
    rw [if_neg h0] at hid
    exact h0 hid

/-- Witness for C2 (amended): an empty stream against the freshly uploaded
turn finalizes the active agent message with empty text and the streaming
flag cleared. -/
theorem C2_amended_witness :
    ({ id := 2, role := Role.agent, text := [], toolCalls := [],
       fileAttachment := none, downloadable := none, streaming := false,
       timestamp := 0 } : Msg).text = tokenConcat (fun _ => none) []
    ∧ ({ id := 2, role := Role.agent, text := [], toolCalls := [],
         fileAttachment := none, downloadable := none, streaming := false,
         timestamp := 0 } : Msg).streaming = false :=
  C2_amended (fun _ => none) (handleFileUploadOk initApp "x.csv" 3) 2 [] _
    (by decide) (by decide)

/-! ## C7 — cleaned-file resolver -/

/-- C7: on the finalized text `"Analysis done. Cleaned data saved at:
/tmp/out_cleaned.csv"` the fallback resolver extracts the path
`/tmp/out_cleaned.csv` with display name `out_cleaned.csv`; the three
patterns are tried in a fixed order with the first match winning; and the
finalization transition consults the fallback only when no structured
file-reference signal was recorded during streaming. -/
theorem C7_cleaned_file_resolver :
    extractCleanedFilePath
        "Analysis done. Cleaned data saved at: /tmp/out_cleaned.csv".toList
      = some "/tmp/out_cleaned.csv".toList
    ∧ downloadNameOf "/tmp/out_cleaned.csv".toList = "out_cleaned.csv".toList
    ∧ (∀ t r, scanKw kwSaved t = some r → extractCleanedFilePath t = some r)
    ∧ (∀ t, scanKw kwSaved t = none → scanKw kwAt t = none →
        extractCleanedFilePath t = scanTick t)
    ∧ (∀ st id full m, m ∈ (finalizeAgentMessage st id full).messages →
        ∃ m₀ ∈ st.messages,
          (m₀.id ≠ id ∧ m = m₀) ∨
          (m₀.id = id ∧ m.downloadable =
            (match m₀.downloadable with
             | some d => some d
             | none =>
               match extractCleanedFilePath full with
               | some p => some (p, downloadNameOf p)
               | none => none))) := by
  refine ⟨by decide, by decide, ?_, ?_, ?_⟩
  · intro t r h
    unfold extractCleanedFilePath
    rw [h]
  · intro t h1 h2
    unfold extractCleanedFilePath
    rw [h1, h2]
  · intro st id full m hm
    simp only [finalizeAgentMessage, List.mem_map] at hm
    rcases hm with ⟨m₀, hm₀, rfl⟩
    by_cases h0 : m₀.id = id
    · exact ⟨m₀, hm₀, Or.inr ⟨h0, by rw [if_pos h0]⟩⟩
    · exact ⟨m₀, hm₀, Or.inl ⟨h0, by rw [if_neg h0]⟩⟩

/-! ## C9 — turn exclusivity and the streaming invariant -/

lemma appInv_mapPreserve (st : AppState) (f : Msg → Msg) (b : Bool) (c : Nat)
    (o : Option Nat) (s : Bool)
    (hb : b = st.running) (ho : o = st.activeId)
    (hpres : ∀ m, (f m).streaming = m.streaming ∧ (f m).id = m.id)
    (hinv : appInv st) :
    appInv { messages := st.messages.map f, running := b, counter := c,
             activeId := o, session := s } := by
  obtain ⟨h1, h2, h3⟩ := hinv
  subst hb ho
  refine ⟨?_, ?_, ?_⟩
  · intro hr m hm
    rcases List.mem_map.mp hm with ⟨m₀, hm₀, rfl⟩
    rw [(hpres m₀).1]
    exact h1 hr m₀ hm₀
  · intro m hm hs
    rcases List.mem_map.mp hm with ⟨m₀, hm₀, rfl⟩
    rw [(hpres m₀).1] at hs
    rw [(hpres m₀).2]
    exact h2 m₀ hm₀ hs
  · show (st.messages.map f).countP (fun m => m.streaming) ≤ 1
    rw [List.countP_map]
    have hc : st.messages.countP ((fun m => m.streaming) ∘ f) =
        st.messages.countP (fun m => m.streaming) := by
      apply List.countP_congr
      intro m _
      rw [Function.comp_apply, (hpres m).1]
    rw [hc]
    exact h3

lemma terminal_all_false (st : AppState) (id : Nat) (f : Msg → Msg)
    (hact : st.activeId = some id)
    (hf : ∀ m, (f m).streaming = (if m.id = id then false else m.streaming))
    (hinv : appInv st) :
    ∀ m ∈ st.messages.map f, m.streaming = false := by
  obtain ⟨_, h2, _⟩ := hinv
  intro m hm
  rcases List.mem_map.mp hm with ⟨m₀, hm₀, rfl⟩
  rw [hf m₀]
  by_cases h0 : m₀.id = id
  · rw [if_pos h0]
  · rw [if_neg h0]
    by_contra hs
    have hs' : m₀.streaming = true := by
      cases hms : m₀.streaming
      · exact absurd hms hs
      · rfl
    have := h2 m₀ hm₀ hs'
    rw [hact] at this
    exact h0 (Option.some_injective _ this).symm

lemma appInv_terminal (st : AppState) (id : Nat) (f : Msg → Msg) (c : Nat) (s : Bool)
    (hact : st.activeId = some id)
    (hf : ∀ m, (f m).streaming = (if m.id = id then false else m.streaming))
    (hinv : appInv st) :
    appInv { messages := st.messages.map f, running := false, counter := c,
             activeId := none, session := s } := by
  have hall := terminal_all_false st id f hact hf hinv
  refine ⟨fun _ m hm => hall m hm, ?_, ?_⟩
  · intro m hm hs
    rw [hall m hm] at hs
    cases hs
  · show (st.messages.map f).countP (fun m => m.streaming) ≤ 1
    have h0 : (st.messages.map f).countP (fun m => m.streaming) = 0 :=
      List.countP_eq_zero.mpr (fun m hm => by rw [hall m hm]; simp)
    rw [h0]
    omega

lemma countP_startMsgs (st : AppState)
    (hall : ∀ m ∈ st.messages, m.streaming = false) (u a : Msg)
    (hu : u.streaming = false) (ha : a.streaming = true) :
    (st.messages ++ [u, a]).countP (fun m => m.streaming) = 1 := by
  rw [List.countP_append]
  have h0 : st.messages.countP (fun m => m.streaming) = 0 :=
    List.countP_eq_zero.mpr (fun m hm => by rw [hall m hm]; simp)
  rw [h0]
  simp [List.countP_cons, hu, ha]

lemma reachable_appInv {st : AppState} (h : Reachable st) : appInv st := by
  induction h with
  | init =>
    refine ⟨fun _ m hm => absurd hm (by simp [initApp]), ?_, ?_⟩
    · intro m hm
      exact absurd hm (by simp [initApp])
    · show ([] : List Msg).countP (fun m => m.streaming) ≤ 1
      simp
  | send st text _ ih =>
    unfold handleSendMessage
    by_cases hg : (st.running || !st.session) = true
    · rw [if_pos hg]
      exact ih
    · rw [if_neg hg]
      have hrs : st.running = false ∧ st.session = true := by
        constructor
        · cases hr : st.running
          · rfl
          · exact absurd (by rw [hr, Bool.true_or]) hg
        · cases hs : st.session
          · exact absurd (by rw [hs]; simp) hg
          · rfl
      obtain ⟨h1, h2, h3⟩ := ih
      have hall := h1 hrs.1
      refine ⟨?_, ?_, ?_⟩
      · intro hr
        cases hr
      · intro m hm hs
        rcases List.mem_append.mp hm with hm | hm
        · rw [hall m hm] at hs
          cases hs
        · rcases List.mem_cons.mp hm with rfl | hm
          · cases hs
          · rcases List.mem_cons.mp hm with rfl | hm
            · rfl
            · exact absurd hm (by simp)
      · exact le_of_eq (countP_startMsgs st hall _ _ rfl rfl)
  | uploadOk st name size _ ih =>
    unfold handleFileUploadOk
    by_cases hg : st.running = true
    · rw [if_pos hg]
      exact ih
    · rw [if_neg hg]
      have hrun : st.running = false := by
        cases hr : st.running
        · rfl
        · exact absurd hr hg
      obtain ⟨h1, h2, h3⟩ := ih
      have hall := h1 hrun
      refine ⟨?_, ?_, ?_⟩
      · intro hr
        cases hr
      · intro m hm hs
        rcases List.mem_append.mp hm with hm | hm
        · rw [hall m hm] at hs
          cases hs
        · rcases List.mem_cons.mp hm with rfl | hm
          · cases hs
          · rcases List.mem_cons.mp hm with rfl | hm
            · rfl
            · exact absurd hm (by simp)
      · exact le_of_eq (countP_startMsgs st hall _ _ rfl rfl)
  | uploadErr st name size emsg _ ih =>
    unfold handleFileUploadErr
    by_cases hg : st.running = true
    · rw [if_pos hg]
      exact ih
    · rw [if_neg hg]
      have hrun : st.running = false := by
        cases hr : st.running
        · rfl
        · exact absurd hr hg
      obtain ⟨h1, h2, h3⟩ := ih
      have hall := h1 hrun
      have hall' : ∀ m ∈ st.messages ++
          [{ mkUserMsg (st.counter + 1) [] with fileAttachment := some (name, size) },
           { mkAgentMsg (st.counter + 2) with
               text := "**Error:** ".toList ++ emsg, streaming := false }],
          m.streaming = false := by
        intro m hm
        rcases List.mem_append.mp hm with hm | hm
        · exact hall m hm
        · rcases List.mem_cons.mp hm with rfl | hm
          · rfl
          · rcases List.mem_cons.mp hm with rfl | hm
            · rfl
            · exact absurd hm (by simp)
      refine ⟨fun _ m hm => hall' m hm, ?_, ?_⟩
      · intro m hm hs
        rw [hall' m hm] at hs
        cases hs
      · show (st.messages ++
            [{ mkUserMsg (st.counter + 1) [] with fileAttachment := some (name, size) },
             { mkAgentMsg (st.counter + 2) with
                 text := "**Error:** ".toList ++ emsg, streaming := false }]).countP
            (fun (m : Msg) => m.streaming) ≤ 1
        have h0 : (st.messages ++
            [{ mkUserMsg (st.counter + 1) [] with fileAttachment := some (name, size) },
             { mkAgentMsg (st.counter + 2) with
                 text := "**Error:** ".toList ++ emsg, streaming := false }]).countP
            (fun (m : Msg) => m.streaming) = 0 :=
          List.countP_eq_zero.mpr (fun m hm => by rw [hall' m hm]; simp)
        omega
  | token st id tok _ hact ih =>
    exact appInv_mapPreserve st _ _ _ _ _ rfl rfl
      (fun m => by by_cases h0 : m.id = id <;> simp [h0]) ih
  | tool st id name friendly _ hact ih =>
    exact appInv_mapPreserve st _ _ _ _ _ rfl rfl
      (fun m => by by_cases h0 : m.id = id <;> simp [h0]) ih
  | cleaned st id path _ hact ih =>
    exact appInv_mapPreserve st _ _ _ _ _ rfl rfl
      (fun m => by by_cases h0 : m.id = id <;> simp [h0]) ih
  | complete st id full _ hact ih =>
    exact appInv_terminal st id _ _ _ hact
      (fun m => by by_cases h0 : m.id = id <;> simp [h0]) ih
  | errored st id emsg _ hact ih =>
    exact appInv_terminal st id _ _ _ hact
      (fun m => by by_cases h0 : m.id = id <;> simp [h0]) ih

/-- C9: in every reachable state at most one message is streaming; starting
a turn sets the agent-running flag; a send attempted while the flag is set
(or an upload, likewise guarded) is rejected with the whole state — message
list and flag included — unchanged; the mid-stream signal handlers never
touch the flag, and only the two terminal transitions clear it. -/
theorem C9_single_streaming_turn (st : AppState) (text : List Char)
    (name fr : String) (size id : Nat) (tok emsg full : List Char)
    (h : Reachable st) :
    streamingCount st ≤ 1
    ∧ (st.running = true →
        handleSendMessage st text = st ∧ handleFileUploadOk st name size = st)
    ∧ (st.running = false → st.session = true →
        (handleSendMessage st text).running = true)
    ∧ (appendAgentText st id tok).running = st.running
    ∧ (appendToolCall st id name fr).running = st.running
    ∧ (setCleanedFile st id tok).running = st.running
    ∧ (finalizeAgentMessage st id full).running = false
    ∧ (markAgentError st id emsg).running = false := by
  refine ⟨(reachable_appInv h).2.2, ?_, ?_, rfl, rfl, rfl, rfl, rfl⟩
  · intro hr
    constructor
    · unfold handleSendMessage
      rw [if_pos (by rw [hr]; rfl)]
    · unfold handleFileUploadOk
      rw [if_pos hr]
  · intro hr hs
    unfold handleSendMessage
    rw [if_neg (by rw [hr, hs]; simp)]

/-! ## C5 — end-to-end three-frame scenario

`JSON.parse` is a host primitive, so the decode function is abstract and
constrained only on the three delivered payloads (their concrete byte
content is irrelevant to the loop, which only trims them and hands them to
the decoder): frame 1 decodes to one segment carrying a tool invocation of
`load_csv`, frame 2 to two text segments, and frame 3 fails to decode. -/

/-- C5: after the three-frame stream ends, the active agent message holds
exactly one tool invocation labelled from the friendly-name table, the
finalized text `"Found 3 issues."`, and is finalized (streaming cleared, no
error annotation, agent-running flag cleared) — the malformed third frame
was skipped silently. -/
theorem C5_end_to_end (decode : List Char → Option (List Part))
    (h1 : decode "frame-one".toList =
      some [{ fc := some "load_csv", cleaned := none, txt := none }])
    (h2 : decode "frame-two".toList =
      some [{ fc := none, cleaned := none, txt := some "Found ".toList },
            { fc := none, cleaned := none, txt := some "3 issues.".toList }])
    (h3 : decode "not-json!!".toList = none) :
    ∃ m : Msg,
      getMsg (runStream decode (handleFileUploadOk initApp "data.csv" 100) 2
          ["data: frame-one".toList, "data: frame-two".toList,
           "data: not-json!!".toList]) 2 = some m
      ∧ m.toolCalls = [("load_csv", "Loading CSV into DuckDB")]
      ∧ m.text = "Found 3 issues.".toList
      ∧ m.streaming = false
      ∧ (runStream decode (handleFileUploadOk initApp "data.csv" 100) 2
          ["data: frame-one".toList, "data: frame-two".toList,
           "data: not-json!!".toList]).running = false := by
  have step1 : processLine decode 2 (handleFileUploadOk initApp "data.csv" 100, [])
      "data: frame-one".toList =
      (appendToolCall (handleFileUploadOk initApp "data.csv" 100) 2 "load_csv"
        (friendlyNameOf "load_csv"), []) := by
    unfold processLine
    rw [if_neg (by decide), if_neg (by decide)]
    have ht : trimStr (List.drop 6 "data: frame-one".toList) = "frame-one".toList := by
      decide
    rw [ht, h1]
    decide
  have step2 : processLine decode 2
      (appendToolCall (handleFileUploadOk initApp "data.csv" 100) 2 "load_csv"
        (friendlyNameOf "load_csv"), [])
      "data: frame-two".toList =
      (appendToolCall (handleFileUploadOk initApp "data.csv" 100) 2 "load_csv"
        (friendlyNameOf "load_csv"), "Found 3 issues.".toList) := by
    unfold processLine
    rw [if_neg (by decide), if_neg (by decide)]
    have ht : trimStr (List.drop 6 "data: frame-two".toList) = "frame-two".toList := by
      decide
    rw [ht, h2]
    decide
  have step3 : processLine decode 2
      (appendToolCall (handleFileUploadOk initApp "data.csv" 100) 2 "load_csv"
        (friendlyNameOf "load_csv"), "Found 3 issues.".toList)
      "data: not-json!!".toList =
      (appendToolCall (handleFileUploadOk initApp "data.csv" 100) 2 "load_csv"
        (friendlyNameOf "load_csv"), "Found 3 issues.".toList) := by
    unfold processLine
    rw [if_neg (by decide), if_neg (by decide)]
    have ht : trimStr (List.drop 6 "data: not-json!!".toList) = "not-json!!".toList := by
      decide
    rw [ht, h3]
  have hrun : runStream decode (handleFileUploadOk initApp "data.csv" 100) 2
      ["data: frame-one".toList, "data: frame-two".toList,
       "data: not-json!!".toList] =
      finalizeAgentMessage
        (appendToolCall (handleFileUploadOk initApp "data.csv" 100) 2 "load_csv"
          (friendlyNameOf "load_csv")) 2 "Found 3 issues.".toList := by
    unfold runStream
    rw [List.foldl_cons, step1, List.foldl_cons, step2, List.foldl_cons, step3,
      List.foldl_nil]
  rw [hrun]
  exact ⟨{ id := 2, role := Role.agent, text := "Found 3 issues.".toList,
           toolCalls := [("load_csv", "Loading CSV into DuckDB")],
           fileAttachment := none, downloadable := none, streaming := false,
           timestamp := 0 },
         by decide, by decide, by decide, by decide, by decide⟩

/-- Witness for C5 with a concrete decode function realising the three
frames. -/
theorem C5_end_to_end_witness :
    ∃ m : Msg,
      getMsg (runStream
          (fun p =>
            if p = "frame-one".toList then
              some [{ fc := some "load_csv", cleaned := none, txt := none }]
            else if p = "frame-two".toList then
              some [{ fc := none, cleaned := none, txt := some "Found ".toList },
                    { fc := none, cleaned := none, txt := some "3 issues.".toList }]
            else none)
          (handleFileUploadOk initApp "data.csv" 100) 2
          ["data: frame-one".toList, "data: frame-two".toList,
           "data: not-json!!".toList]) 2 = some m
      ∧ m.toolCalls = [("load_csv", "Loading CSV into DuckDB")]
      ∧ m.text = "Found 3 issues.".toList
      ∧ m.streaming = false
      ∧ (runStream
          (fun p =>
            if p = "frame-one".toList then
              some [{ fc := some "load_csv", cleaned := none, txt := none }]
            else if p = "frame-two".toList then
              some [{ fc := none, cleaned := none, txt := some "Found ".toList },
                    { fc := none, cleaned := none, txt := some "3 issues.".toList }]
            else none)
          (handleFileUploadOk initApp "data.csv" 100) 2
          ["data: frame-one".toList, "data: frame-two".toList,
           "data: not-json!!".toList]).running = false :=
  C5_end_to_end _ (by decide) (by decide) (by decide)

/-! ## C3 — boundary invariance of the transport line reader

The proof layers: (1) arithmetic facts about the UTF-8 encoding of a single
code point; (2) the streaming decoder consumes whole encodings from the
front and parks a proper prefix of the next encoding as pending; (3) the
newline splitter merges across concatenation; (4) the reader-loop invariant
is preserved chunk by chunk, so the emitted records depend only on the
concatenation of all chunks. -/

lemma utf8EncodeCp_spec {n : Nat} (hn : n < 0x110000) :
    ∃ b bs, utf8EncodeCp n = b :: bs ∧
      utf8LeadLen b = (utf8EncodeCp n).length ∧
      decCp (utf8EncodeCp n) = n := by
  unfold utf8EncodeCp
  by_cases h1 : n < 0x80
  · rw [if_pos h1]
    refine ⟨n, [], rfl, ?_, rfl⟩
    unfold utf8LeadLen
    rw [if_pos h1]
    rfl
  rw [if_neg h1]
  by_cases h2 : n < 0x800
  · rw [if_pos h2]
    refine ⟨0xC0 + n / 64, [0x80 + n % 64], rfl, ?_, ?_⟩
    · unfold utf8LeadLen
      rw [if_neg (by omega), if_neg (by omega), if_pos (by omega)]
      rfl
    · show (0xC0 + n / 64 - 0xC0) * 64 + (0x80 + n % 64 - 0x80) = n
      omega
  rw [if_neg h2]
  by_cases h3 : n < 0x10000
  · rw [if_pos h3]
    refine ⟨0xE0 + n / 4096, [0x80 + n / 64 % 64, 0x80 + n % 64], rfl, ?_, ?_⟩
    · unfold utf8LeadLen
      rw [if_neg (by omega), if_neg (by omega), if_neg (by omega), if_pos (by omega)]
      rfl
    · show (0xE0 + n / 4096 - 0xE0) * 4096 + (0x80 + n / 64 % 64 - 0x80) * 64 +
        (0x80 + n % 64 - 0x80) = n
      omega
  · rw [if_neg h3]
    refine ⟨0xF0 + n / 262144,
      [0x80 + n / 4096 % 64, 0x80 + n / 64 % 64, 0x80 + n % 64], rfl, ?_, ?_⟩
    · unfold utf8LeadLen
      rw [if_neg (by omega), if_neg (by omega), if_neg (by omega), if_neg (by omega),
        if_pos (by omega)]
      rfl
    · show (0xF0 + n / 262144 - 0xF0) * 262144 + (0x80 + n / 4096 % 64 - 0x80) * 4096 +
        (0x80 + n / 64 % 64 - 0x80) * 64 + (0x80 + n % 64 - 0x80) = n
      omega

lemma utf8Encode_nil : utf8Encode [] = [] := rfl

lemma utf8Encode_cons (c : Nat) (cs : List Nat) :
    utf8Encode (c :: cs) = utf8EncodeCp c ++ utf8Encode cs := by
  simp [utf8Encode]

lemma utf8Encode_append (a b : List Nat) :
    utf8Encode (a ++ b) = utf8Encode a ++ utf8Encode b := by
  simp [utf8Encode]

lemma utf8Encode_eq_nil {d : List Nat} (hd : ∀ c ∈ d, c < 0x110000)
    (h : utf8Encode d = []) : d = [] := by
  cases d with
  | nil => rfl
  | cons c cs =>
    exfalso
    rcases utf8EncodeCp_spec (hd c (by simp)) with ⟨b, bs, hb, _, _⟩
    rw [utf8Encode_cons, hb] at h
    simp at h

lemma decodeAllF_fuelIrrel :
    ∀ f₁ f₂ bs, bs.length ≤ f₁ → bs.length ≤ f₂ →
      decodeAllF f₁ bs = decodeAllF f₂ bs := by
  intro f₁
  induction f₁ with
  | zero =>
    intro f₂ bs h1 _
    have : bs = [] := List.length_eq_zero.mp (Nat.le_zero.mp h1)
    subst this
    cases f₂ <;> rfl
  | succ f ih =>
    intro f₂ bs h1 h2
    cases bs with
    | nil => cases f₂ <;> rfl
    | cons b rest =>
      cases f₂ with
      | zero => simp at h2
      | succ g =>
        show decodeAllF (f + 1) (b :: rest) = decodeAllF (g + 1) (b :: rest)
        unfold decodeAllF
        by_cases hlen : utf8LeadLen b = 0
        · rw [if_pos hlen, if_pos hlen]
          rw [ih g rest (by simpa using h1) (by simpa using h2)]
        · rw [if_neg hlen, if_neg hlen]
          by_cases hinc : rest.length + 1 < utf8LeadLen b
          · rw [if_pos hinc, if_pos hinc]
          · rw [if_neg hinc, if_neg hinc]
            have hd1 : (List.drop (utf8LeadLen b - 1) rest).length ≤ rest.length := by
              rw [List.length_drop]
              omega
            have hr1 : rest.length ≤ f := by simpa using h1
            have hr2 : rest.length ≤ g := by simpa using h2
            rw [ih g (List.drop (utf8LeadLen b - 1) rest)
              (le_trans hd1 hr1) (le_trans hd1 hr2)]

lemma decodeAll_nil : decodeAll [] = ([], []) := rfl

lemma decodeAllF_step_complete (f : Nat) (b : Nat) (rest : List Nat)
    (hlen0 : ¬utf8LeadLen b = 0) (hfit : ¬(rest.length + 1 < utf8LeadLen b)) :
    decodeAllF (f + 1) (b :: rest) =
      (decCp (List.take (utf8LeadLen b) (b :: rest)) ::
        (decodeAllF f (List.drop (utf8LeadLen b - 1) rest)).1,
       (decodeAllF f (List.drop (utf8LeadLen b - 1) rest)).2) := by
  conv_lhs => unfold decodeAllF
  rw [if_neg hlen0, if_neg hfit]

lemma decodeAll_encCons {n : Nat} (hn : n < 0x110000) (w : List Nat) :
    decodeAll (utf8EncodeCp n ++ w) = (n :: (decodeAll w).1, (decodeAll w).2) := by
  rcases utf8EncodeCp_spec hn with ⟨b, bs, hb, hlead, hdec⟩
  have hblen : utf8LeadLen b = bs.length + 1 := by
    rw [hlead, hb]
    rfl
  have hcons : utf8EncodeCp n ++ w = b :: (bs ++ w) := by
    rw [hb]
    simp
  have hL : (utf8EncodeCp n ++ w).length = (bs ++ w).length + 1 := by
    rw [hcons]
    rfl
  have htake : List.take (utf8LeadLen b) (b :: (bs ++ w)) = b :: bs := by
    rw [hblen]
    show b :: List.take bs.length (bs ++ w) = b :: bs
    rw [List.take_left]
  have hdrop : List.drop (utf8LeadLen b - 1) (bs ++ w) = w := by
    rw [hblen]
    simp [List.drop_left]
  show decodeAllF (utf8EncodeCp n ++ w).length (utf8EncodeCp n ++ w) = _
  rw [hL, hcons, decodeAllF_step_complete (bs ++ w).length b (bs ++ w)
    (by omega) (by simp only [List.length_append]; omega),
    htake, hdrop, ← hb, hdec,
    decodeAllF_fuelIrrel (bs ++ w).length w.length w (by simp) le_rfl]
  rfl

lemma decodeAll_encAppend {cs : List Nat} (hcs : ∀ c ∈ cs, c < 0x110000)
    (w : List Nat) :
    decodeAll (utf8Encode cs ++ w) = (cs ++ (decodeAll w).1, (decodeAll w).2) := by
  induction cs with
  | nil => simp [utf8Encode_nil]
  | cons c cs ih =>
    rw [utf8Encode_cons, List.append_assoc,
      decodeAll_encCons (hcs c (by simp)),
      ih (fun c hc => hcs c (by simp [hc]))]
    simp

lemma decodeAll_incomplete {p d : List Nat} (h : IncompleteFor p d) :
    decodeAll p = ([], p) := by
  rcases h with rfl | ⟨m, ms, _, hm, hne, q, hq, hpq⟩
  · rfl
  · cases p with
    | nil => exact absurd rfl hne
    | cons b rest =>
      rcases utf8EncodeCp_spec hm with ⟨b', bs', hb', hlead, _⟩
      have hbb : b' = b := by
        rw [hb'] at hpq
        have := congrArg (fun l => l.head?) hpq
        simpa using this.symm
      have hplen : (b :: rest).length < (utf8EncodeCp m).length := by
        have hlenq := congrArg List.length hpq
        rw [List.length_append] at hlenq
        have hq1 : 1 ≤ q.length := by
          cases q with
          | nil => exact absurd rfl hq
          | cons _ _ => simp
        omega
      have hlead' : utf8LeadLen b = (utf8EncodeCp m).length := by
        rw [← hbb]
        exact hlead
      unfold decodeAll
      show decodeAllF (rest.length + 1) (b :: rest) = ([], b :: rest)
      unfold decodeAllF
      rw [if_neg (by
        rw [hlead']
        rcases utf8EncodeCp_spec hm with ⟨b'', bs'', hb'', _, _⟩
        rw [hb'']
        simp)]
      rw [if_pos (by
        rw [hlead']
        simpa using hplen)]

lemma decodeAll_pre :
    ∀ (ds : List Nat), (∀ c ∈ ds, c < 0x110000) →
      ∀ Z R, Z ++ R = utf8Encode ds →
        ∃ d₁ d₂ p, ds = d₁ ++ d₂ ∧ Z = utf8Encode d₁ ++ p ∧ IncompleteFor p d₂ ∧
          decodeAll Z = (d₁, p) := by
  intro ds
  induction ds with
  | nil =>
    intro _ Z R hZR
    rw [utf8Encode_nil] at hZR
    obtain ⟨hZ, _⟩ := List.append_eq_nil.mp hZR
    subst hZ
    exact ⟨[], [], [], rfl, rfl, Or.inl rfl, decodeAll_nil⟩
  | cons d ds ih =>
    intro hval Z R hZR
    rw [utf8Encode_cons] at hZR
    by_cases hlen : (utf8EncodeCp d).length ≤ Z.length
    · have htake : List.take (utf8EncodeCp d).length Z = utf8EncodeCp d := by
        have h1 : List.take (utf8EncodeCp d).length (Z ++ R) =
            List.take (utf8EncodeCp d).length Z := by
          rw [List.take_append_eq_append_take,
            show (utf8EncodeCp d).length - Z.length = 0 from by omega]
          simp
        rw [hZR, List.take_left] at h1
        exact h1.symm
      have hZsplit : Z = utf8EncodeCp d ++ List.drop (utf8EncodeCp d).length Z := by
        conv_lhs => rw [← List.take_append_drop (utf8EncodeCp d).length Z]
        rw [htake]
      have hrest : List.drop (utf8EncodeCp d).length Z ++ R = utf8Encode ds := by
        apply List.append_cancel_left
        rw [← List.append_assoc, ← hZsplit, hZR]
      rcases ih (fun c hc => hval c (by simp [hc])) _ R hrest with
        ⟨d₁, d₂, p, hds, hZ'eq, hinc, hdec⟩
      refine ⟨d :: d₁, d₂, p, by rw [hds]; rfl, ?_, hinc, ?_⟩
      · rw [hZsplit, hZ'eq, utf8Encode_cons]
        simp [List.append_assoc]
      · rw [hZsplit, decodeAll_encCons (hval d (by simp)), hdec]
    · push_neg at hlen
      have htake : Z = List.take Z.length (utf8EncodeCp d) := by
        have h1 : List.take Z.length (Z ++ R) = Z := List.take_left Z R
        rw [hZR, List.take_append_eq_append_take,
          show Z.length - (utf8EncodeCp d).length = 0 from by omega] at h1
        simpa using h1.symm
      have hq : Z ++ List.drop Z.length (utf8EncodeCp d) = utf8EncodeCp d := by
        conv_rhs => rw [← List.take_append_drop Z.length (utf8EncodeCp d)]
        rw [← htake]
      have hqne : List.drop Z.length (utf8EncodeCp d) ≠ [] := by
        intro h0
        have := congrArg List.length hq
        rw [List.length_append, h0] at this
        simp at this
        omega
      have hincp : IncompleteFor Z (d :: ds) := by
        by_cases hZnil : Z = []
        · exact Or.inl hZnil
        · exact Or.inr ⟨d, ds, rfl, hval d (by simp), hZnil, _, hqne, hq⟩
      exact ⟨[], d :: ds, Z, rfl, by rw [utf8Encode_nil]; rfl, hincp,
        decodeAll_incomplete hincp⟩

lemma splitNl_ne_nil (l : List Nat) : splitNl l ≠ [] := by
  induction l with
  | nil => simp [splitNl]
  | cons c r _ =>
    unfold splitNl
    by_cases h : c = 10
    · simp [h]
    · rw [if_neg h]
      rcases hs : splitNl r with _ | ⟨h', t'⟩ <;> simp

lemma splitNl_cons_nl (r : List Nat) : splitNl (10 :: r) = [] :: splitNl r := by
  conv_lhs => unfold splitNl
  rw [if_pos rfl]

lemma splitNl_cons_ne {c : Nat} (h : ¬c = 10) (r h' t' : _)
    (hs : splitNl r = h' :: t') : splitNl (c :: r) = (c :: h') :: t' := by
  unfold splitNl
  rw [if_neg h, hs]

lemma splitNl_append_last :
    ∀ (a : List Nat) (E : List (List Nat)) (last b : _),
      splitNl a = E ++ [last] → splitNl (a ++ b) = E ++ splitNl (last ++ b) := by
  intro a
  induction a with
  | nil =>
    intro E last b h
    rcases E with _ | ⟨e, E'⟩
    · have hlast : last = [] := by
        have h' : ([] : List Nat) :: [] = [last] := h
        exact (List.cons.inj h').1.symm
      rw [hlast]
      simp
    · exfalso
      have h' : ([[]] : List (List Nat)) = e :: (E' ++ [last]) := h
      have := (List.cons.inj h').2
      exact absurd this.symm (by simp)
  | cons c a' ih =>
    intro E last b h
    by_cases hc : c = 10
    · subst hc
      rw [splitNl_cons_nl] at h
      rcases E with _ | ⟨e, E'⟩
      · exfalso
        have h' := (List.cons.inj h).2
        exact splitNl_ne_nil a' h'
      · obtain ⟨he, hE⟩ := List.cons.inj h
        subst he
        show splitNl ((10 :: a') ++ b) = ([] :: E') ++ splitNl (last ++ b)
        rw [List.cons_append, splitNl_cons_nl, ih E' last b hE]
        rfl
    · rcases hs : splitNl a' with _ | ⟨h', t'⟩
      · exact absurd hs (splitNl_ne_nil a')
      rw [splitNl_cons_ne hc a' h' t' hs] at h
      rcases E with _ | ⟨e, E'⟩
      · obtain ⟨h1, h2⟩ := List.cons.inj h
        have ha' : splitNl a' = [] ++ [h'] := by rw [hs, h2]; rfl
        have hab := ih [] h' b ha'
        rcases hs2 : splitNl (h' ++ b) with _ | ⟨hh, tt⟩
        · exact absurd hs2 (splitNl_ne_nil _)
        show splitNl ((c :: a') ++ b) = [] ++ splitNl (last ++ b)
        rw [List.cons_append,
          splitNl_cons_ne hc (a' ++ b) hh tt (by rw [hab, List.nil_append, hs2]),
          ← h1, List.nil_append, List.cons_append,
          splitNl_cons_ne hc (h' ++ b) hh tt hs2]
      · obtain ⟨h1, h2⟩ := List.cons.inj h
        have ha' : splitNl a' = (h' :: E') ++ [last] := by
          rw [hs, h2]
          rfl
        have hab := ih (h' :: E') last b ha'
        show splitNl ((c :: a') ++ b) = (e :: E') ++ splitNl (last ++ b)
        rw [List.cons_append,
          splitNl_cons_ne hc (a' ++ b) h' (E' ++ splitNl (last ++ b))
            (by rw [hab]; rfl),
          ← h1]
        rfl

lemma dropLast_getLastD :
    ∀ (l : List (List Nat)), l ≠ [] → l.dropLast ++ [l.getLastD []] = l := by
  intro l
  induction l with
  | nil => intro h; exact absurd rfl h
  | cons x xs ih =>
    intro _
    cases xs with
    | nil => rfl
    | cons y ys =>
      have h2 := ih (by simp)
      have hdl : (x :: y :: ys).dropLast = x :: (y :: ys).dropLast := rfl
      have hg : (x :: y :: ys).getLastD [] = (y :: ys).getLastD [] := by
        simp [List.getLastD_cons]
      rw [hdl, hg, List.cons_append, h2]

lemma rdStep_inv {text B c R : List Nat} {st : RdState}
    (hval : ∀ x ∈ text, x < 0x110000)
    (hinv : RdInv text B st)
    (hpre : (B ++ c) ++ R = utf8Encode text) :
    RdInv text (B ++ c) (rdStep st c) := by
  obtain ⟨d₁, d₂, htext, hcons, _, hlines⟩ := hinv
  have htexteq : utf8Encode text = utf8Encode d₁ ++ utf8Encode d₂ := by
    rw [htext, utf8Encode_append]
  have hmid : (st.pend ++ c) ++ R = utf8Encode d₂ := by
    apply List.append_cancel_left
    show utf8Encode d₁ ++ ((st.pend ++ c) ++ R) = utf8Encode d₁ ++ utf8Encode d₂
    rw [← htexteq, ← hpre, hcons]
    simp [List.append_assoc]
  have hvald₂ : ∀ x ∈ d₂, x < 0x110000 := fun x hx =>
    hval x (by rw [htext]; simp [hx])
  rcases decodeAll_pre d₂ hvald₂ (st.pend ++ c) R hmid with
    ⟨δ, d₂', p', hd₂, hpc, hinc', hdec⟩
  refine ⟨d₁ ++ δ, d₂', ?_, ?_, ?_, ?_⟩
  · rw [htext, hd₂]
    simp [List.append_assoc]
  · show B ++ c = utf8Encode (d₁ ++ δ) ++ (decodeAll (st.pend ++ c)).2
    rw [hdec]
    show B ++ c = utf8Encode (d₁ ++ δ) ++ p'
    rw [utf8Encode_append, hcons, List.append_assoc, hpc, List.append_assoc]
  · show IncompleteFor (decodeAll (st.pend ++ c)).2 d₂'
    rw [hdec]
    exact hinc'
  · have hd1 : (decodeAll (st.pend ++ c)).1 = δ := by rw [hdec]
    show (st.emitted ++ (splitNl (st.buffer ++ (decodeAll (st.pend ++ c)).1)).dropLast)
        ++ [(splitNl (st.buffer ++ (decodeAll (st.pend ++ c)).1)).getLastD []] =
      splitNl (d₁ ++ δ)
    rw [hd1]
    have hne := splitNl_ne_nil (st.buffer ++ δ)
    have hmerge := splitNl_append_last d₁ st.emitted st.buffer δ hlines.symm
    rw [List.append_assoc, dropLast_getLastD _ hne, hmerge]

lemma rdFold_inv :
    ∀ (chunks : List (List Nat)) (text B R : List Nat) (st : RdState),
      (∀ x ∈ text, x < 0x110000) → RdInv text B st →
      B ++ (chunks.flatten ++ R) = utf8Encode text →
      RdInv text (B ++ chunks.flatten) (chunks.foldl rdStep st) := by
  intro chunks
  induction chunks with
  | nil =>
    intro text B R st _ hinv _
    simpa using hinv
  | cons c cs ih =>
    intro text B R st hval hinv hpre
    rw [List.foldl_cons]
    have hpre' : (B ++ c) ++ (cs.flatten ++ R) = utf8Encode text := by
      rw [← hpre]
      simp [List.append_assoc]
    have hstep := rdStep_inv hval hinv hpre'
    have hih := ih text (B ++ c) R (rdStep st c) hval hstep hpre'
    have hflat : (B ++ c) ++ cs.flatten = B ++ (c :: cs).flatten := by
      simp [List.append_assoc]
    rwa [hflat] at hih

/-- C3: for every code-point text and every partition of its UTF-8 byte
encoding into read chunks — including splits inside a multi-byte character
and inside a line — the transport line reader emits exactly the complete
`'\n'`-terminated records of the text, identical to a single unsplit read;
the trailing carry-over without a terminator (the last piece of the split)
is discarded in both runs. -/
theorem C3_line_reader_boundary_invariant (text : List Nat)
    (chunks : List (List Nat))
    (hval : ∀ x ∈ text, x < 0x110000)
    (hjoin : chunks.flatten = utf8Encode text) :
    readLines chunks = (splitNl text).dropLast
    ∧ readLines chunks = readLines [utf8Encode text] := by
  have main : ∀ (cs : List (List Nat)), cs.flatten = utf8Encode text →
      readLines cs = (splitNl text).dropLast := by
    intro cs hcs
    have hinit : RdInv text [] rdInit :=
      ⟨[], text, rfl, rfl, Or.inl rfl, rfl⟩
    have hfold := rdFold_inv cs text [] [] rdInit hval hinit (by simp [hcs])
    obtain ⟨d₁, d₂, htext, hcons, hinc, hlines⟩ := hfold
    have hconsumed : utf8Encode d₁ ++ (cs.foldl rdStep rdInit).pend =
        utf8Encode text := by
      rw [← hcons, List.nil_append, hcs]
    have hpend_enc : (cs.foldl rdStep rdInit).pend = utf8Encode d₂ := by
      apply List.append_cancel_left
      rw [hconsumed, htext, utf8Encode_append]
    have hd₂nil : d₂ = [] := by
      rcases hinc with hpnil | ⟨m, ms, hd₂, _, _, q, hqne, hpq⟩
      · rw [hpnil] at hpend_enc
        exact utf8Encode_eq_nil
          (fun x hx => hval x (by rw [htext]; simp [hx])) hpend_enc.symm
      · exfalso
        have h1 := congrArg List.length hpq
        rw [List.length_append] at h1
        have h2 := congrArg List.length hpend_enc
        rw [hd₂, utf8Encode_cons, List.length_append] at h2
        have hq1 : 1 ≤ q.length := by
          cases q with
          | nil => exact absurd rfl hqne
          | cons _ _ => simp
        omega
    have hd₁ : d₁ = text := by
      rw [htext, hd₂nil, List.append_nil]
    have hread : readLines cs = (splitNl d₁).dropLast := by
      show (cs.foldl rdStep rdInit).emitted = (splitNl d₁).dropLast
      calc (cs.foldl rdStep rdInit).emitted
          = ((cs.foldl rdStep rdInit).emitted ++
              [(cs.foldl rdStep rdInit).buffer]).dropLast :=
            List.dropLast_concat.symm
        _ = (splitNl d₁).dropLast := by rw [hlines]
    rw [hread, hd₁]
  refine ⟨main chunks hjoin, ?_⟩
  rw [main chunks hjoin, main [utf8Encode text] (by simp)]

/-- Witness for C3: the text `"ab\né"` (code points `[97, 98, 10, 233]`)
encoded as six UTF-8 bytes and split in the middle of the two-byte
encoding of `é` yields the single record `"ab"`, the same as the unsplit
read. -/
theorem C3_line_reader_boundary_invariant_witness :
    readLines [[97], [98, 10, 195], [169]] = (splitNl [97, 98, 10, 233]).dropLast
    ∧ readLines [[97], [98, 10, 195], [169]] =
        readLines [utf8Encode [97, 98, 10, 233]] :=
  C3_line_reader_boundary_invariant [97, 98, 10, 233] [[97], [98, 10, 195], [169]]
    (by decide) (by decide)

/-- Witness for C9 at the initial state. -/
theorem C9_single_streaming_turn_witness :
    streamingCount initApp ≤ 1
    ∧ (initApp.running = true →
        handleSendMessage initApp ['h'] = initApp ∧
        handleFileUploadOk initApp "f.csv" 1 = initApp)
    ∧ (initApp.running = false → initApp.session = true →
        (handleSendMessage initApp ['h']).running = true)
    ∧ (appendAgentText initApp 1 ['t']).running = initApp.running
    ∧ (appendToolCall initApp 1 "f.csv" "F").running = initApp.running
    ∧ (setCleanedFile initApp 1 ['t']).running = initApp.running
    ∧ (finalizeAgentMessage initApp 1 ['t']).running = false
    ∧ (markAgentError initApp 1 ['t']).running = false :=
  C9_single_streaming_turn initApp ['h'] "f.csv" "F" 1 1 ['t'] ['t'] ['t']
    Reachable.init

end Datagrunt
